import Mathlib

/-!
Verification of the RowBinary codec of the `clickhouse-binary` repository.

The repository's `src/rowbinary/mod.rs` declares the modules `format`,
`reader`, `schema`, `type_binary`, `value_rw` and `writer`, but only the
module file and an integration test are visible; the codec implementation
itself is absent.  All codec definitions below are therefore modelled from
the specification (sections 3, 4, 6 and 7 of `spec.md`), faithful to its
words: bytes are `Nat` below 256, type signatures are ASCII character
lists, fallible operations return `Except`.
-/

namespace ClickhouseBinary

/-- Errors of the codec, modelled from the spec's error taxonomy (section 7):
`invalidType` for malformed type signatures, `truncated` for a byte source
ending mid-cell or mid-header, `malformedData` for an impossible
discriminant, `schemaMismatch` for header/schema disagreement, and
`endOfStream` for the reader's normal terminal condition (section 4.4). -/
inductive CodecError where
  | invalidType
  | truncated
  | malformedData
  | schemaMismatch
  | endOfStream

/-- Modelled from the spec: the variable-length (LEB128-style) unsigned
integer encoding used for lengths, element counts and header column counts
(sections 4.2, 4.3 and the glossary).  Low seven bits first, high bit of a
byte set when more bytes follow.  The first argument is structural fuel;
`n` itself is always enough fuel since the remaining value shrinks by a
factor of 128 each step. -/
def uvarintEncAux : Nat → Nat → List Nat
  | 0, n => [n % 128]
  | fuel + 1, n => if n < 128 then [n] else (n % 128 + 128) :: uvarintEncAux fuel (n / 128)

/-- LEB128 encoding of a natural number. -/
def uvarintEnc (n : Nat) : List Nat :=
  uvarintEncAux n n

/-- Modelled from the spec: decoding of the variable-length unsigned
integer.  Fails with `truncated` when the byte source ends before a byte
with its high bit clear. -/
def uvarintDec : List Nat → Except CodecError (Nat × List Nat)
  | [] => .error .truncated
  | b :: rest =>
    if b < 128 then .ok (b, rest)
    else
      match uvarintDec rest with
      | .ok (n, r) => .ok (n * 128 + (b - 128), r)
      | .error e => .error e

/-- Modelled from the spec: little-endian fixed-width encoding of an
unsigned value, `w` bytes, least significant byte first (section 4.2). -/
def natToLE : Nat → Nat → List Nat
  | 0, _ => []
  | w + 1, n => n % 256 :: natToLE w (n / 256)

/-- Modelled from the spec: little-endian fixed-width decoding; fails with
`truncated` when fewer than `w` bytes remain (section 4.2). -/
def natFromLE : Nat → List Nat → Except CodecError (Nat × List Nat)
  | 0, bs => .ok (0, bs)
  | _ + 1, [] => .error .truncated
  | w + 1, b :: bs =>
    match natFromLE w bs with
    | .ok (n, rest) => .ok (b + 256 * n, rest)
    | .error e => .error e

/-- Modelled from the spec: reading an exact number of raw bytes (used for
`FixedString(N)` and for string payloads); fails with `truncated` when
fewer bytes remain (sections 4.2 and 7). -/
def readBytes (n : Nat) (bs : List Nat) : Except CodecError (List Nat × List Nat) :=
  if n ≤ bs.length then .ok (bs.take n, bs.drop n) else .error .truncated

/-- Two's-complement representation of a signed value in `w` bytes,
used for the fixed-width signed integers and for `Decimal` (section 4.2). -/
def toTwos (w : Nat) (v : Int) : Nat :=
  (v % (256 ^ w : Nat)).toNat

/-- Signed interpretation of a `w`-byte unsigned value. -/
def fromTwos (w : Nat) (n : Nat) : Int :=
  if n < 256 ^ w / 2 then (n : Int) else (n : Int) - (256 ^ w : Nat)

/-- Modelled from the spec: the Type Descriptor discriminant (section 3),
restricted to the types whose wire encoding section 4.2 specifies: the
fixed-width integers (signed and unsigned, widths 8/16/32/64/128 bits),
floating point (32/64 bits), the variable-length byte string,
`FixedString(N)`, `Decimal(P,S)`, `Array(T)`, `Nullable(T)` and
`Tuple(T1..Tn)`.  Fully resolved and immutable after parsing. -/
inductive Ty where
  | uint8 | uint16 | uint32 | uint64 | uint128
  | int8 | int16 | int32 | int64 | int128
  | float32 | float64
  | string
  | fixedString (n : Nat)
  | decimal (p s : Nat)
  | array (t : Ty)
  | nullable (t : Ty)
  | tuple (ts : List Ty)

/-- Modelled from the spec: the tagged in-memory Value union mirroring the
Type Descriptor discriminant (section 3).  Floating-point cells carry
their raw little-endian bit pattern, since the codec only moves bytes;
strings carry raw bytes with no text-encoding validation (section 4.2). -/
inductive Value where
  | uint8 (v : Nat) | uint16 (v : Nat) | uint32 (v : Nat) | uint64 (v : Nat) | uint128 (v : Nat)
  | int8 (v : Int) | int16 (v : Int) | int32 (v : Int) | int64 (v : Int) | int128 (v : Int)
  | float32 (bits : Nat) | float64 (bits : Nat)
  | string (bytes : List Nat)
  | fixedString (bytes : List Nat)
  | decimal (v : Int)
  | array (elems : List Value)
  | nullable (val : Option Value)
  | tuple (elems : List Value)

/-- Byte width selected by a `Decimal` precision (section 4.2: a
fixed-width signed integer whose width is selected by precision,
32/64/128 bits). -/
def decimalWidth (p : Nat) : Nat :=
  if p ≤ 9 then 4 else if p ≤ 18 then 8 else 16

mutual

/-- Modelled from the spec: the per-type encode routine of the Binary
Codec (`type_binary`, missing from src/), dispatched by Type Descriptor
(section 4.2).  Fixed-width numerics are little-endian; strings carry a
LEB128 length then raw bytes; arrays carry a LEB128 element count then the
elements; nullables carry a one-byte discriminant; tuples are the plain
concatenation of their components; `FixedString(N)` is the raw bytes with
no prefix; `Decimal(P,S)` is a fixed-width signed integer whose width is
selected by precision.  A tag mismatch is a contract violation (never
reached from the Writer's contract), encoded here as the empty output. -/
def encodeValue : Ty → Value → List Nat
  | .uint8, .uint8 v => natToLE 1 v
  | .uint16, .uint16 v => natToLE 2 v
  | .uint32, .uint32 v => natToLE 4 v
  | .uint64, .uint64 v => natToLE 8 v
  | .uint128, .uint128 v => natToLE 16 v
  | .int8, .int8 v => natToLE 1 (toTwos 1 v)
  | .int16, .int16 v => natToLE 2 (toTwos 2 v)
  | .int32, .int32 v => natToLE 4 (toTwos 4 v)
  | .int64, .int64 v => natToLE 8 (toTwos 8 v)
  | .int128, .int128 v => natToLE 16 (toTwos 16 v)
  | .float32, .float32 b => natToLE 4 b
  | .float64, .float64 b => natToLE 8 b
  | .string, .string bs => uvarintEnc bs.length ++ bs
  | .fixedString _, .fixedString bs => bs
  | .decimal p _, .decimal v => natToLE (decimalWidth p) (toTwos (decimalWidth p) v)
  | .array t, .array vs => uvarintEnc vs.length ++ encodeList t vs
  | .nullable _, .nullable none => [1]
  | .nullable t, .nullable (some v) => 0 :: encodeValue t v
  | .tuple ts, .tuple vs => encodeSeq ts vs
  | _, _ => []
termination_by t v => sizeOf v

/-- Concatenated encodings of the elements of an array. -/
def encodeList : Ty → List Value → List Nat
  | _, [] => []
  | t, v :: vs => encodeValue t v ++ encodeList t vs
termination_by t vs => sizeOf vs

/-- Concatenated encodings of the components of a tuple. -/
def encodeSeq : List Ty → List Value → List Nat
  | [], _ => []
  | _, [] => []
  | t :: ts, v :: vs => encodeValue t v ++ encodeSeq ts vs
termination_by ts vs => sizeOf vs

end

/-- Decode a `w`-byte little-endian unsigned cell into `mk`. -/
def decodeUIntAs (w : Nat) (mk : Nat → Value) (bs : List Nat) :
    Except CodecError (Value × List Nat) :=
  match natFromLE w bs with
  | .ok (n, rest) => .ok (mk n, rest)
  | .error e => .error e

/-- Decode a `w`-byte little-endian two's-complement cell into `mk`. -/
def decodeIntAs (w : Nat) (mk : Int → Value) (bs : List Nat) :
    Except CodecError (Value × List Nat) :=
  match natFromLE w bs with
  | .ok (n, rest) => .ok (mk (fromTwos w n), rest)
  | .error e => .error e

mutual

/-- Modelled from the spec: the per-type decode routine of the Binary
Codec (`type_binary`, missing from src/), operating on the remaining byte
source and returning the decoded Value with the bytes left over
(section 4.2).  Any premature end of the byte source yields `truncated`;
a `Nullable` discriminant outside 0 and 1 yields `malformedData`
(section 7). -/
def decodeValue : Ty → List Nat → Except CodecError (Value × List Nat)
  | .uint8, bs => decodeUIntAs 1 Value.uint8 bs
  | .uint16, bs => decodeUIntAs 2 Value.uint16 bs
  | .uint32, bs => decodeUIntAs 4 Value.uint32 bs
  | .uint64, bs => decodeUIntAs 8 Value.uint64 bs
  | .uint128, bs => decodeUIntAs 16 Value.uint128 bs
  | .int8, bs => decodeIntAs 1 Value.int8 bs
  | .int16, bs => decodeIntAs 2 Value.int16 bs
  | .int32, bs => decodeIntAs 4 Value.int32 bs
  | .int64, bs => decodeIntAs 8 Value.int64 bs
  | .int128, bs => decodeIntAs 16 Value.int128 bs
  | .float32, bs => decodeUIntAs 4 Value.float32 bs
  | .float64, bs => decodeUIntAs 8 Value.float64 bs
  | .string, bs =>
    match uvarintDec bs with
    | .error e => .error e
    | .ok (n, bs1) =>
      match readBytes n bs1 with
      | .error e => .error e
      | .ok (payload, bs2) => .ok (.string payload, bs2)
  | .fixedString n, bs =>
    match readBytes n bs with
    | .error e => .error e
    | .ok (payload, bs1) => .ok (.fixedString payload, bs1)
  | .decimal p _, bs => decodeIntAs (decimalWidth p) Value.decimal bs
  | .array t, bs =>
    match uvarintDec bs with
    | .error e => .error e
    | .ok (n, bs1) =>
      match decodeList t n bs1 with
      | .error e => .error e
      | .ok (vs, bs2) => .ok (.array vs, bs2)
  | .nullable t, bs =>
    match bs with
    | [] => .error .truncated
    | 0 :: bs1 =>
      match decodeValue t bs1 with
      | .error e => .error e
      | .ok (v, bs2) => .ok (.nullable (some v), bs2)
    | 1 :: bs1 => .ok (.nullable none, bs1)
    | _ :: _ => .error .malformedData
  | .tuple ts, bs =>
    match decodeSeq ts bs with
    | .error e => .error e
    | .ok (vs, bs1) => .ok (.tuple vs, bs1)
termination_by t bs => (sizeOf t, 0)

/-- Decode `n` consecutive encodings of one element type (array body). -/
def decodeList : Ty → Nat → List Nat → Except CodecError (List Value × List Nat)
  | _, 0, bs => .ok ([], bs)
  | t, n + 1, bs =>
    match decodeValue t bs with
    | .error e => .error e
    | .ok (v, bs1) =>
      match decodeList t n bs1 with
      | .error e => .error e
      | .ok (vs, bs2) => .ok (v :: vs, bs2)
termination_by t n bs => (sizeOf t, n + 1)

/-- Decode one encoding of each component type in order (tuple body). -/
def decodeSeq : List Ty → List Nat → Except CodecError (List Value × List Nat)
  | [], bs => .ok ([], bs)
  | t :: ts, bs =>
    match decodeValue t bs with
    | .error e => .error e
    | .ok (v, bs1) =>
      match decodeSeq ts bs1 with
      | .error e => .error e
      | .ok (vs, bs2) => .ok (v :: vs, bs2)
termination_by ts bs => (sizeOf ts, 0)

end

/-- Modelled from the spec: a Value's tag structurally matches the Type
Descriptor used to produce or consume it (section 3).  Numeric payloads
additionally lie in the range of their width — in the missing Rust source
this is intrinsic to the `Value` variants carrying `u8`/`i64`/… payloads —
and a `FixedString(N)` payload has exactly `N` bytes. -/
inductive ValidFor : Ty → Value → Prop where
  | uint8 {n : Nat} : n < 256 ^ 1 → ValidFor .uint8 (.uint8 n)
  | uint16 {n : Nat} : n < 256 ^ 2 → ValidFor .uint16 (.uint16 n)
  | uint32 {n : Nat} : n < 256 ^ 4 → ValidFor .uint32 (.uint32 n)
  | uint64 {n : Nat} : n < 256 ^ 8 → ValidFor .uint64 (.uint64 n)
  | uint128 {n : Nat} : n < 256 ^ 16 → ValidFor .uint128 (.uint128 n)
  | int8 {v : Int} : -(256 ^ 1 / 2 : Nat) ≤ v → v < (256 ^ 1 / 2 : Nat) →
      ValidFor .int8 (.int8 v)
  | int16 {v : Int} : -(256 ^ 2 / 2 : Nat) ≤ v → v < (256 ^ 2 / 2 : Nat) →
      ValidFor .int16 (.int16 v)
  | int32 {v : Int} : -(256 ^ 4 / 2 : Nat) ≤ v → v < (256 ^ 4 / 2 : Nat) →
      ValidFor .int32 (.int32 v)
  | int64 {v : Int} : -(256 ^ 8 / 2 : Nat) ≤ v → v < (256 ^ 8 / 2 : Nat) →
      ValidFor .int64 (.int64 v)
  | int128 {v : Int} : -(256 ^ 16 / 2 : Nat) ≤ v → v < (256 ^ 16 / 2 : Nat) →
      ValidFor .int128 (.int128 v)
  | float32 {b : Nat} : b < 256 ^ 4 → ValidFor .float32 (.float32 b)
  | float64 {b : Nat} : b < 256 ^ 8 → ValidFor .float64 (.float64 b)
  | string {bs : List Nat} : (∀ b ∈ bs, b < 256) → ValidFor .string (.string bs)
  | fixedString {n : Nat} {bs : List Nat} : bs.length = n → (∀ b ∈ bs, b < 256) →
      ValidFor (.fixedString n) (.fixedString bs)
  | decimal {p s : Nat} {v : Int} : -(256 ^ decimalWidth p / 2 : Nat) ≤ v →
      v < (256 ^ decimalWidth p / 2 : Nat) → ValidFor (.decimal p s) (.decimal v)
  | array {t : Ty} {vs : List Value} : (∀ v ∈ vs, ValidFor t v) →
      ValidFor (.array t) (.array vs)
  | nullableNone {t : Ty} : ValidFor (.nullable t) (.nullable none)
  | nullableSome {t : Ty} {v : Value} : ValidFor t v →
      ValidFor (.nullable t) (.nullable (some v))
  | tuple {ts : List Ty} {vs : List Value} : ts.length = vs.length →
      (∀ p ∈ List.zip ts vs, ValidFor p.1 p.2) → ValidFor (.tuple ts) (.tuple vs)

/-- Well-formedness of a Type Descriptor as producible by the signature
parser (section 4.1): tuples have a non-empty parameter list (an empty one
is rejected with `invalidType`) and fixed strings have positive length. -/
inductive WfTy : Ty → Prop where
  | uint8 : WfTy .uint8
  | uint16 : WfTy .uint16
  | uint32 : WfTy .uint32
  | uint64 : WfTy .uint64
  | uint128 : WfTy .uint128
  | int8 : WfTy .int8
  | int16 : WfTy .int16
  | int32 : WfTy .int32
  | int64 : WfTy .int64
  | int128 : WfTy .int128
  | float32 : WfTy .float32
  | float64 : WfTy .float64
  | string : WfTy .string
  | fixedString {n : Nat} : 0 < n → WfTy (.fixedString n)
  | decimal {p s : Nat} : WfTy (.decimal p s)
  | array {t : Ty} : WfTy t → WfTy (.array t)
  | nullable {t : Ty} : WfTy t → WfTy (.nullable t)
  | tuple {ts : List Ty} : ts ≠ [] → (∀ t ∈ ts, WfTy t) → WfTy (.tuple ts)

mutual

/-- Structural equality of Type Descriptors (section 4.1: same discriminant
and same parameters, recursively), used for schema/header type-matching in
the names-and-types variant. -/
def tyBeq : Ty → Ty → Bool
  | .uint8, b => match b with | .uint8 => true | _ => false
  | .uint16, b => match b with | .uint16 => true | _ => false
  | .uint32, b => match b with | .uint32 => true | _ => false
  | .uint64, b => match b with | .uint64 => true | _ => false
  | .uint128, b => match b with | .uint128 => true | _ => false
  | .int8, b => match b with | .int8 => true | _ => false
  | .int16, b => match b with | .int16 => true | _ => false
  | .int32, b => match b with | .int32 => true | _ => false
  | .int64, b => match b with | .int64 => true | _ => false
  | .int128, b => match b with | .int128 => true | _ => false
  | .float32, b => match b with | .float32 => true | _ => false
  | .float64, b => match b with | .float64 => true | _ => false
  | .string, b => match b with | .string => true | _ => false
  | .fixedString n, b => match b with | .fixedString m => n == m | _ => false
  | .decimal p s, b => match b with | .decimal q t => p == q && s == t | _ => false
  | .array t, b => match b with | .array u => tyBeq t u | _ => false
  | .nullable t, b => match b with | .nullable u => tyBeq t u | _ => false
  | .tuple ts, b => match b with | .tuple us => tyBeqList ts us | _ => false

/-- Pointwise structural equality of tuple component lists. -/
def tyBeqList : List Ty → List Ty → Bool
  | [], [] => true
  | t :: ts, u :: us => tyBeq t u && tyBeqList ts us
  | _, _ => false

end

/-- Byte width of the fixed-width integer and floating-point Type
Descriptors (section 3: widths 8/16/32/64/128 bits for integers, 32/64
bits for floats); `none` for every other type. -/
def numericWidth : Ty → Option Nat
  | .uint8 => some 1
  | .uint16 => some 2
  | .uint32 => some 4
  | .uint64 => some 8
  | .uint128 => some 16
  | .int8 => some 1
  | .int16 => some 2
  | .int32 => some 4
  | .int64 => some 8
  | .int128 => some 16
  | .float32 => some 4
  | .float64 => some 8
  | .string => none
  | .fixedString _ => none
  | .decimal _ _ => none
  | .array _ => none
  | .nullable _ => none
  | .tuple _ => none

/-- The unsigned little-endian payload a fixed-width numeric cell writes:
the value itself for unsigned integers, its two's complement for signed
integers, the raw bit pattern for floats; 0 elsewhere (unused). -/
def lePayload : Ty → Value → Nat
  | .uint8, v => match v with | .uint8 n => n | _ => 0
  | .uint16, v => match v with | .uint16 n => n | _ => 0
  | .uint32, v => match v with | .uint32 n => n | _ => 0
  | .uint64, v => match v with | .uint64 n => n | _ => 0
  | .uint128, v => match v with | .uint128 n => n | _ => 0
  | .int8, v => match v with | .int8 x => toTwos 1 x | _ => 0
  | .int16, v => match v with | .int16 x => toTwos 2 x | _ => 0
  | .int32, v => match v with | .int32 x => toTwos 4 x | _ => 0
  | .int64, v => match v with | .int64 x => toTwos 8 x | _ => 0
  | .int128, v => match v with | .int128 x => toTwos 16 x | _ => 0
  | .float32, v => match v with | .float32 b => b | _ => 0
  | .float64, v => match v with | .float64 b => b | _ => 0
  | _, _ => 0

/-- Identifier characters of the ASCII type-signature grammar
(section 6): letters and digits. -/
def isIdentChar (c : Char) : Bool :=
  c.isAlpha || c.isDigit

def kwUInt8 : List Char := ['U', 'I', 'n', 't', '8']

def kwUInt16 : List Char := ['U', 'I', 'n', 't', '1', '6']

def kwUInt32 : List Char := ['U', 'I', 'n', 't', '3', '2']

def kwUInt64 : List Char := ['U', 'I', 'n', 't', '6', '4']

def kwUInt128 : List Char := ['U', 'I', 'n', 't', '1', '2', '8']

def kwInt8 : List Char := ['I', 'n', 't', '8']

def kwInt16 : List Char := ['I', 'n', 't', '1', '6']

def kwInt32 : List Char := ['I', 'n', 't', '3', '2']

def kwInt64 : List Char := ['I', 'n', 't', '6', '4']

def kwInt128 : List Char := ['I', 'n', 't', '1', '2', '8']

def kwFloat32 : List Char := ['F', 'l', 'o', 'a', 't', '3', '2']

def kwFloat64 : List Char := ['F', 'l', 'o', 'a', 't', '6', '4']

def kwString : List Char := ['S', 't', 'r', 'i', 'n', 'g']

def kwFixedString : List Char := ['F', 'i', 'x', 'e', 'd', 'S', 't', 'r', 'i', 'n', 'g']

def kwDecimal : List Char := ['D', 'e', 'c', 'i', 'm', 'a', 'l']

def kwArray : List Char := ['A', 'r', 'r', 'a', 'y']

def kwNullable : List Char := ['N', 'u', 'l', 'l', 'a', 'b', 'l', 'e']

def kwTuple : List Char := ['T', 'u', 'p', 'l', 'e']

/-- Modelled from the spec: depth tracking over a parameter list — the
depth after scanning, or `none` when a closing parenthesis appears at
depth zero (an unbalanced list, section 4.1). -/
def netOk : List Char → Nat → Option Nat
  | [], d => some d
  | c :: r, d =>
    if c = '(' then netOk r (d + 1)
    else if c = ')' then (if d = 0 then none else netOk r (d - 1))
    else netOk r d

/-- No comma occurs at depth zero while scanning from the given depth. -/
def noTopComma : List Char → Nat → Bool
  | [], _ => true
  | c :: r, d =>
    if c = '(' then noTopComma r (d + 1)
    else if c = ')' then noTopComma r (d - 1)
    else if c = ',' then decide (d ≠ 0) && noTopComma r d
    else noTopComma r d

/-- Modelled from the spec: splitting a parameter list on top-level commas
only — a comma nested inside an inner parameter list must not split the
outer list, which requires depth tracking (section 4.1, tie-break). -/
def splitTopAux : List Char → Nat → List Char → List (List Char)
  | [], _, acc => [acc.reverse]
  | c :: rest, d, acc =>
    if c = ',' ∧ d = 0 then acc.reverse :: splitTopAux rest 0 []
    else splitTopAux rest (if c = '(' then d + 1 else if c = ')' then d - 1 else d) (c :: acc)

/-- Split a parameter list on its top-level commas. -/
def splitTopLevel (s : List Char) : List (List Char) :=
  splitTopAux s 0 []

/-- Big-endian decimal rendering of a natural number; the first argument
is structural fuel, `n` itself always suffices. -/
def renderNatAux : Nat → Nat → List Char
  | 0, n => [Nat.digitChar (n % 10)]
  | fuel + 1, n =>
    if n < 10 then [Nat.digitChar n]
    else renderNatAux fuel (n / 10) ++ [Nat.digitChar (n % 10)]

/-- Decimal rendering of a natural number. -/
def renderNat (n : Nat) : List Char :=
  renderNatAux n n

/-- Value of a decimal digit string. -/
def digitsVal (s : List Char) : Nat :=
  s.foldl (fun a c => a * 10 + (c.toNat - 48)) 0

/-- Modelled from the spec: a numeric parameter (precision, scale, fixed
length) parses only when non-empty and all digits (section 4.1:
non-numeric precision/scale is malformed). -/
def parseNatParam (s : List Char) : Option Nat :=
  if s ≠ [] ∧ s.all Char.isDigit then some (digitsVal s) else none

/-- Modelled from the spec: leaf keyword lookup; an unknown leaf keyword
is `invalidType` (section 4.1). -/
def leafOfName (s : List Char) : Except CodecError Ty :=
  if s = kwUInt8 then .ok .uint8
  else if s = kwUInt16 then .ok .uint16
  else if s = kwUInt32 then .ok .uint32
  else if s = kwUInt64 then .ok .uint64
  else if s = kwUInt128 then .ok .uint128
  else if s = kwInt8 then .ok .int8
  else if s = kwInt16 then .ok .int16
  else if s = kwInt32 then .ok .int32
  else if s = kwInt64 then .ok .int64
  else if s = kwInt128 then .ok .int128
  else if s = kwFloat32 then .ok .float32
  else if s = kwFloat64 then .ok .float64
  else if s = kwString then .ok .string
  else .error .invalidType

/-- Parse every parameter of a list with the given recursive parser. -/
def parseParams (r : List Char → Except CodecError Ty) :
    List (List Char) → Except CodecError (List Ty)
  | [] => .ok []
  | p :: ps =>
    match r p with
    | .error e => .error e
    | .ok t =>
      match parseParams r ps with
      | .error e => .error e
      | .ok ts => .ok (t :: ts)

/-- Dispatch a parametric wrapper keyword over its split parameter list
(section 4.1): `Array`, `Nullable` and `Tuple` parse their parameters
recursively as types; `FixedString` and `Decimal` parse integers; an
unknown wrapper, a wrong parameter count or a non-numeric parameter is
`invalidType`. -/
def dispatchParams (r : List Char → Except CodecError Ty) (ident : List Char)
    (params : List (List Char)) : Except CodecError Ty :=
  if ident = kwArray then
    match params with
    | [p] => match r p with | .ok t => .ok (.array t) | .error e => .error e
    | _ => .error .invalidType
  else if ident = kwNullable then
    match params with
    | [p] => match r p with | .ok t => .ok (.nullable t) | .error e => .error e
    | _ => .error .invalidType
  else if ident = kwTuple then
    match parseParams r params with
    | .ok ts => .ok (.tuple ts)
    | .error e => .error e
  else if ident = kwFixedString then
    match params with
    | [p] =>
      match parseNatParam p with
      | some n => .ok (.fixedString n)
      | none => .error .invalidType
    | _ => .error .invalidType
  else if ident = kwDecimal then
    match params with
    | [p, q] =>
      match parseNatParam p, parseNatParam q with
      | some a, some b => .ok (.decimal a b)
      | _, _ => .error .invalidType
    | _ => .error .invalidType
  else .error .invalidType

/-- One step of the recursive-descent signature parser (section 4.1): an
identifier names a leaf, or a parametric wrapper followed by a
parenthesized, comma-separated parameter list; an unbalanced list is
`invalidType`. -/
def parseWith (r : List Char → Except CodecError Ty) (s : List Char) :
    Except CodecError Ty :=
  match s.dropWhile isIdentChar with
  | [] => leafOfName (s.takeWhile isIdentChar)
  | c :: inner1 =>
    if c = '(' then
      match inner1.getLast? with
      | some e =>
        if e = ')' then
          if netOk inner1.dropLast 0 = some 0 then
            dispatchParams r (s.takeWhile isIdentChar) (splitTopLevel inner1.dropLast)
          else .error .invalidType
        else .error .invalidType
      | none => .error .invalidType
    else .error .invalidType

/-- The fuel-indexed recursive-descent parser; each recursive call is on
a strictly shorter parameter, so length-based fuel always suffices. -/
def parseTyF : Nat → List Char → Except CodecError Ty
  | 0, _ => .error .invalidType
  | fuel + 1, s => parseWith (parseTyF fuel) s

/-- Modelled from the spec: `parse(signature: text) -> Type Descriptor`,
failing with `invalidType` when the signature is syntactically malformed
(section 4.1).  Implemented in the missing `schema.rs`/`type_binary.rs`
sources. -/
def parseTy (s : List Char) : Except CodecError Ty :=
  parseTyF (s.length + 1) s

mutual

/-- Rendering of a Type Descriptor back to its textual signature, used by
the Writer when emitting the names-and-types header (section 4.3). -/
def renderTy : Ty → List Char
  | .uint8 => kwUInt8
  | .uint16 => kwUInt16
  | .uint32 => kwUInt32
  | .uint64 => kwUInt64
  | .uint128 => kwUInt128
  | .int8 => kwInt8
  | .int16 => kwInt16
  | .int32 => kwInt32
  | .int64 => kwInt64
  | .int128 => kwInt128
  | .float32 => kwFloat32
  | .float64 => kwFloat64
  | .string => kwString
  | .fixedString n => kwFixedString ++ '(' :: renderNat n ++ [')']
  | .decimal p s => kwDecimal ++ '(' :: renderNat p ++ ',' :: renderNat s ++ [')']
  | .array t => kwArray ++ '(' :: renderTy t ++ [')']
  | .nullable t => kwNullable ++ '(' :: renderTy t ++ [')']
  | .tuple ts => kwTuple ++ '(' :: renderTyList ts ++ [')']

/-- Comma-separated rendering of tuple components. -/
def renderTyList : List Ty → List Char
  | [] => []
  | [t] => renderTy t
  | t :: ts => renderTy t ++ ',' :: renderTyList ts

end

/-- Modelled from the spec: a column binding of name to Type Descriptor
(section 3, Schema; `Field` is exported by `src/rowbinary/mod.rs` from the
missing `schema.rs`).  The name is carried as raw bytes. -/
structure Field where
  name : List Nat
  ty : Ty

/-- A Row is an ordered sequence of Values (section 3; exported by
`src/rowbinary/mod.rs` from the missing `schema.rs`). -/
abbrev Row := List Value

/-- The three wire variants, exported as `RowBinaryFormat` by
`src/rowbinary/mod.rs` from the missing `format.rs`; the constructor names
follow the test file's `RowBinary`, `RowBinaryWithNames`,
`RowBinaryWithNamesAndTypes`. -/
inductive RowBinaryFormat where
  | rowBinary
  | rowBinaryWithNames
  | rowBinaryWithNamesAndTypes
  deriving DecidableEq

/-- Modelled from the spec: the textual rendering of a format variant as
interpolated into `INSERT INTO t FORMAT {format}` by the tests — the wire
format name understood by the server (missing `format.rs` Display impl). -/
def formatDisplay : RowBinaryFormat → String
  | .rowBinary => "RowBinary"
  | .rowBinaryWithNames => "RowBinaryWithNames"
  | .rowBinaryWithNamesAndTypes => "RowBinaryWithNamesAndTypes"

/-- A length-prefixed byte string: LEB128 length, then the raw bytes
(section 4.2). -/
def encodeString (bs : List Nat) : List Nat :=
  uvarintEnc bs.length ++ bs

/-- Decode a length-prefixed byte string (section 4.2). -/
def decodeString (bs : List Nat) : Except CodecError (List Nat × List Nat) :=
  match uvarintDec bs with
  | .error e => .error e
  | .ok (n, bs1) => readBytes n bs1

/-- The byte rendering of a type signature placed in the
names-and-types header (section 4.3): ASCII bytes of the signature. -/
def typeSignatureBytes (t : Ty) : List Nat :=
  (renderTy t).map Char.toNat

/-- Modelled from the spec: the names-only header body — each column name
as a length-prefixed string (section 4.3, variant 2). -/
def writeNamesHeader : List Field → List Nat
  | [] => []
  | f :: fs => encodeString f.name ++ writeNamesHeader fs

/-- Modelled from the spec: the names-and-types header body — each name
immediately followed by its length-prefixed textual type signature
(section 4.3, variant 3). -/
def writeNamesTypesHeader : List Field → List Nat
  | [] => []
  | f :: fs =>
    encodeString f.name ++ encodeString (typeSignatureBytes f.ty) ++ writeNamesTypesHeader fs

/-- Modelled from the spec: the Writer's header emission (section 4.3):
nothing for the bare variant, otherwise the column count as a LEB128
integer followed by the header body derived from the Schema. -/
def writeHeader (format : RowBinaryFormat) (schema : List Field) : List Nat :=
  match format with
  | .rowBinary => []
  | .rowBinaryWithNames => uvarintEnc schema.length ++ writeNamesHeader schema
  | .rowBinaryWithNamesAndTypes => uvarintEnc schema.length ++ writeNamesTypesHeader schema

/-- Modelled from the spec: the Writer's row encoding — one Binary-Codec
call per Schema column in order, concatenated (sections 4.4 and 4.5). -/
def writeRow (schema : List Field) (row : Row) : List Nat :=
  encodeSeq (schema.map Field.ty) row

/-- Concatenated encodings of a sequence of rows. -/
def writeRows (schema : List Field) : List Row → List Nat
  | [] => []
  | r :: rs => writeRow schema r ++ writeRows schema rs

/-- Modelled from the spec: the Writer (missing `writer.rs`) — emits its
header exactly once, then every row in order (sections 4.3 and 4.5). -/
def encodeRows (format : RowBinaryFormat) (schema : List Field) (rows : List Row) :
    List Nat :=
  writeHeader format schema ++ writeRows schema rows

/-- Skip the given number of length-prefixed name strings of a names-only
header; names are tolerated positionally (section 4.3). -/
def skipNames : Nat → List Nat → Except CodecError (List Nat)
  | 0, bs => .ok bs
  | k + 1, bs =>
    match decodeString bs with
    | .error e => .error e
    | .ok (_, bs1) => skipNames k bs1

/-- Modelled from the spec: the names-and-types header check — each name
is read and ignored (binding is positional), each type signature is
re-parsed and compared structurally against the caller-supplied Schema;
disagreement is `schemaMismatch` (section 4.3). -/
def checkTypesHeader : List Field → List Nat → Except CodecError (List Nat)
  | [], bs => .ok bs
  | f :: fs, bs =>
    match decodeString bs with
    | .error e => .error e
    | .ok (_, bs1) =>
      match decodeString bs1 with
      | .error e => .error e
      | .ok (tstr, bs2) =>
        match parseTy (tstr.map Char.ofNat) with
        | .error e => .error e
        | .ok t2 => if tyBeq t2 f.ty then checkTypesHeader fs bs2 else .error .schemaMismatch

/-- Modelled from the spec: the Reader's header handling per variant
(section 4.3): nothing for the bare variant; otherwise the decoded column
count is checked against the caller-supplied Schema — mismatch is
`schemaMismatch` — and for the names-and-types variant each declared type
is checked structurally. -/
def readHeader (format : RowBinaryFormat) (schema : List Field) (bs : List Nat) :
    Except CodecError (List Nat) :=
  match format with
  | .rowBinary => .ok bs
  | .rowBinaryWithNames =>
    match uvarintDec bs with
    | .error e => .error e
    | .ok (n, bs1) =>
      if n = schema.length then skipNames n bs1 else .error .schemaMismatch
  | .rowBinaryWithNamesAndTypes =>
    match uvarintDec bs with
    | .error e => .error e
    | .ok (n, bs1) =>
      if n = schema.length then checkTypesHeader schema bs1 else .error .schemaMismatch

/-- Modelled from the spec: `read_row` of the Reader (missing
`reader.rs`): when the byte source is exhausted at a row boundary it
signals `endOfStream` — zero bytes of a new row consumed — otherwise it
decodes one cell per Schema column in order; a row that began but cannot
be completed surfaces `truncated` from the Binary Codec (section 4.4). -/
def readRow (schema : List Field) (bs : List Nat) :
    Except CodecError (Row × List Nat) :=
  if bs.isEmpty then .error .endOfStream
  else
    match decodeSeq (schema.map Field.ty) bs with
    | .error e => .error e
    | .ok (row, rest) => .ok (row, rest)

/-- Repeated `read_row` until `endOfStream` (section 4.4); the fuel is
bounded by the byte count, which suffices because every row of a
well-formed, non-empty schema consumes at least one byte. -/
def readRowsAux (schema : List Field) : Nat → List Nat → Except CodecError (List Row)
  | 0, _ => .error .malformedData
  | fuel + 1, bs =>
    match readRow schema bs with
    | .error .endOfStream => .ok []
    | .error e => .error e
    | .ok (row, rest) =>
      match readRowsAux schema fuel rest with
      | .error e => .error e
      | .ok rows => .ok (row :: rows)

/-- Modelled from the spec: the full Reader pipeline (section 6,
`decode(schema, format, byte_source) -> sequence of Row`): parse and
validate the header per Format, then read rows until the source is
exhausted. -/
def decodeRows (format : RowBinaryFormat) (schema : List Field) (bs : List Nat) :
    Except CodecError (List Row) :=
  match readHeader format schema bs with
  | .error e => .error e
  | .ok body => readRowsAux schema (body.length + 1) body

/-- A row is valid for a schema when the row's Values pairwise
structurally match the schema's Type Descriptors (sections 3 and 4.5). -/
def ValidRow (schema : List Field) (row : Row) : Prop :=
  ValidFor (.tuple (schema.map Field.ty)) (.tuple row)

/-- Every column type of the schema is well-formed. -/
def WfSchema (schema : List Field) : Prop :=
  ∀ f ∈ schema, WfTy f.ty

/-- Modelled from the spec: `Schema::from_type_strings` — build a schema
by parsing each column's textual type signature (missing `schema.rs`,
used by the tests as `Schema::from_type_strings(&[(name, sig)])`). -/
def fromTypeStrings : List (List Nat × List Char) → Except CodecError (List Field)
  | [] => .ok []
  | (nm, sig) :: rest =>
    match parseTy sig with
    | .error e => .error e
    | .ok t =>
      match fromTypeStrings rest with
      | .error e => .error e
      | .ok fs => .ok (⟨nm, t⟩ :: fs)

/-- The ASCII bytes of the column name `value` used by the array tests. -/
def nmValue : List Nat := [118, 97, 108, 117, 101]

/-- The signature text `Array(UInt8)` of the array tests. -/
def sigArrayUInt8 : List Char := ['A', 'r', 'r', 'a', 'y', '(', 'U', 'I', 'n', 't', '8', ')']

/-- The schema `[("value", Array(UInt8))]` of the array tests. -/
def schemaArrayUInt8 : List Field := [⟨nmValue, .array .uint8⟩]

/-- The two rows `[[1,2,3]]` then `[[]]` of the multi-row array tests. -/
def rowsArrayUInt8 : List Row :=
  [[.array [.uint8 1, .uint8 2, .uint8 3]], [.array []]]

/-- An unbalanced signature `Array(UInt8` (missing closing parenthesis). -/
def sigUnbalanced : List Char := ['A', 'r', 'r', 'a', 'y', '(', 'U', 'I', 'n', 't', '8']

/-- An unknown leaf keyword `Foo`. -/
def sigUnknownLeaf : List Char := ['F', 'o', 'o']

/-- A non-numeric fixed-string length `FixedString(x)`. -/
def sigBadFixed : List Char :=
  ['F', 'i', 'x', 'e', 'd', 'S', 't', 'r', 'i', 'n', 'g', '(', 'x', ')']

/-- An empty parameter list where one is required, `Tuple()`. -/
def sigTupleEmpty : List Char := ['T', 'u', 'p', 'l', 'e', '(', ')']

/-- `Tuple(Tuple(UInt8,Int8),String)` — the inner comma is nested one
parameter list deep and must not split the outer list. -/
def sigNestedComma : List Char :=
  ['T', 'u', 'p', 'l', 'e', '(', 'T', 'u', 'p', 'l', 'e', '(', 'U', 'I', 'n', 't', '8',
   ',', 'I', 'n', 't', '8', ')', ',', 'S', 't', 'r', 'i', 'n', 'g', ')']

/-- A single `UInt16` column schema with an empty name, used to exhibit a
truncated row. -/
def schemaU16 : List Field := [⟨[], .uint16⟩]

theorem uvarintEncAux_roundtrip (fuel n : Nat) (hf : n ≤ fuel) (rest : List Nat) :
    uvarintDec (uvarintEncAux fuel n ++ rest) = .ok (n, rest) := by
  induction fuel generalizing n with
  | zero =>
    interval_cases n
    simp [uvarintEncAux, uvarintDec]
  | succ fuel ih =>
    by_cases h : n < 128
    · simp [uvarintEncAux, uvarintDec, h]
    · have hdiv : n / 128 ≤ fuel := by
        have : n / 128 < n := Nat.div_lt_self (by omega) (by omega)
        omega
      have hmod : ¬ (n % 128 + 128 < 128) := by omega
      simp only [uvarintEncAux, if_neg h, List.cons_append, uvarintDec, if_neg hmod,
        ih (n / 128) hdiv]
      have : n / 128 * 128 + (n % 128 + 128 - 128) = n := by omega
      rw [this]

theorem uvarintEnc_roundtrip (n : Nat) (rest : List Nat) :
    uvarintDec (uvarintEnc n ++ rest) = .ok (n, rest) :=
  uvarintEncAux_roundtrip n n (Nat.le_refl n) rest

theorem uvarintEncAux_zero (fuel : Nat) : uvarintEncAux fuel 0 = [0] := by
  cases fuel <;> simp [uvarintEncAux]

theorem uvarintEnc_zero : uvarintEnc 0 = [0] := rfl

theorem natToLE_length (w n : Nat) : (natToLE w n).length = w := by
  induction w generalizing n with
  | zero => simp [natToLE]
  | succ w ih => simp [natToLE, ih]

theorem natToLE_roundtrip (w n : Nat) (hn : n < 256 ^ w) (rest : List Nat) :
    natFromLE w (natToLE w n ++ rest) = .ok (n, rest) := by
  induction w generalizing n with
  | zero =>
    have : n = 0 := by simpa using hn
    simp [natToLE, natFromLE, this]
  | succ w ih =>
    have hdiv : n / 256 < 256 ^ w := by
      rw [Nat.div_lt_iff_lt_mul (by omega)]
      calc n < 256 ^ (w + 1) := hn
        _ = 256 ^ w * 256 := by ring
    simp only [natToLE, List.cons_append, natFromLE, List.append_eq, ih (n / 256) hdiv]
    have : n % 256 + 256 * (n / 256) = n := by omega
    rw [this]

theorem natFromLE_truncated (w : Nat) (bs : List Nat) (hw : bs.length < w) :
    natFromLE w bs = .error .truncated := by
  induction w generalizing bs with
  | zero => omega
  | succ w ih =>
    cases bs with
    | nil => simp [natFromLE]
    | cons b bs =>
      simp only [List.length_cons] at hw
      simp [natFromLE, ih bs (by omega)]


theorem readBytes_roundtrip (bs rest : List Nat) :
    readBytes bs.length (bs ++ rest) = .ok (bs, rest) := by
  simp [readBytes]

theorem pow256_half (w : Nat) : 256 ^ w / 2 * 2 = 256 ^ w ∨ w = 0 := by
  cases w with
  | zero => right; rfl
  | succ w =>
    left
    have : 256 ^ (w + 1) = 256 ^ w * 256 := by ring
    omega

theorem toTwos_lt (w : Nat) (v : Int) : toTwos w v < 256 ^ w := by
  unfold toTwos
  generalize hM : (256 : Nat) ^ w = M
  have hMpos : 0 < M := by
    have : 0 < (256 : Nat) ^ w := by positivity
    omega
  have h := Int.emod_lt_of_pos v (b := (M : Int)) (by exact_mod_cast hMpos)
  have h0 := Int.emod_nonneg v (b := (M : Int)) (by exact_mod_cast hMpos.ne')
  omega

theorem fromTwos_toTwos (w : Nat) (v : Int)
    (hlo : -(256 ^ w / 2 : Nat) ≤ v) (hhi : v < (256 ^ w / 2 : Nat)) :
    fromTwos w (toTwos w v) = v := by
  unfold toTwos fromTwos
  have hw : 256 ^ w / 2 * 2 = 256 ^ w := by
    rcases pow256_half w with h | h
    · exact h
    · subst h; simp at hhi; omega
  generalize hM : (256 : Nat) ^ w = M at *
  have hMpos : 0 < M := by omega
  rcases le_or_lt 0 v with hv | hv
  · have hmod : v % (M : Nat) = v := by
      apply Int.emod_eq_of_lt hv
      have : M / 2 ≤ M := Nat.div_le_self _ _
      omega
    rw [hmod]
    split <;> omega
  · have hmod : v % (M : Nat) = v + (M : Nat) := by
      have h1 : (v + (M : Nat)) % (M : Nat) = v % (M : Nat) := by
        have := Int.add_mul_emod_self_left (a := v) (b := ((M : Nat) : Int)) (c := 1)
        simpa using this
      rw [← h1]
      apply Int.emod_eq_of_lt (by omega) (by omega)
    rw [hmod]
    split <;> omega

theorem decodeUIntAs_enc (w : Nat) (mk : Nat → Value) (n : Nat) (rest : List Nat)
    (hn : n < 256 ^ w) :
    decodeUIntAs w mk (natToLE w n ++ rest) = .ok (mk n, rest) := by
  simp [decodeUIntAs, natToLE_roundtrip w n hn]

theorem decodeIntAs_enc (w : Nat) (mk : Int → Value) (v : Int) (rest : List Nat)
    (hlo : -(256 ^ w / 2 : Nat) ≤ v) (hhi : v < (256 ^ w / 2 : Nat)) :
    decodeIntAs w mk (natToLE w (toTwos w v) ++ rest) = .ok (mk v, rest) := by
  simp [decodeIntAs, natToLE_roundtrip w _ (toTwos_lt w v), fromTwos_toTwos w v hlo hhi]

theorem encDecList_of_ih (t : Ty) (vs : List Value)
    (ih : ∀ v ∈ vs, ∀ rest, decodeValue t (encodeValue t v ++ rest) = .ok (v, rest))
    (rest : List Nat) :
    decodeList t vs.length (encodeList t vs ++ rest) = .ok (vs, rest) := by
  induction vs generalizing rest with
  | nil => simp [encodeList, decodeList]
  | cons v vs2 ihl =>
    simp only [encodeList, List.length_cons, decodeList, List.append_assoc,
      ih v (List.mem_cons_self v vs2) (encodeList t vs2 ++ rest),
      ihl (fun v2 hv2 => ih v2 (List.mem_cons_of_mem v hv2)) rest]

theorem encDecSeq_of_ih (ts : List Ty) (vs : List Value) (hlen : ts.length = vs.length)
    (ih : ∀ p ∈ List.zip ts vs, ∀ rest,
      decodeValue p.1 (encodeValue p.1 p.2 ++ rest) = .ok (p.2, rest))
    (rest : List Nat) :
    decodeSeq ts (encodeSeq ts vs ++ rest) = .ok (vs, rest) := by
  induction ts generalizing vs rest with
  | nil =>
    cases vs with
    | nil => simp [encodeSeq, decodeSeq]
    | cons v vs2 => simp at hlen
  | cons t ts2 ihs =>
    cases vs with
    | nil => simp at hlen
    | cons v vs2 =>
      simp only [List.length_cons] at hlen
      simp only [encodeSeq, decodeSeq, List.append_assoc,
        ih (t, v) (by simp [List.zip_cons_cons]) (encodeSeq ts2 vs2 ++ rest),
        ihs vs2 (by omega)
          (fun p hp => ih p (by simp [List.zip_cons_cons, hp])) rest]

/-- Round trip of the Binary Codec on a single cell: decoding the bytes
produced by encoding a value valid for its Type Descriptor yields that
value back and leaves the following bytes untouched. -/
theorem encDecValue {t : Ty} {v : Value} (h : ValidFor t v) (rest : List Nat) :
    decodeValue t (encodeValue t v ++ rest) = .ok (v, rest) := by
  induction h generalizing rest with
  | uint8 hn => simp only [encodeValue, decodeValue, decodeUIntAs_enc 1 _ _ rest hn]
  | uint16 hn => simp only [encodeValue, decodeValue, decodeUIntAs_enc 2 _ _ rest hn]
  | uint32 hn => simp only [encodeValue, decodeValue, decodeUIntAs_enc 4 _ _ rest hn]
  | uint64 hn => simp only [encodeValue, decodeValue, decodeUIntAs_enc 8 _ _ rest hn]
  | uint128 hn => simp only [encodeValue, decodeValue, decodeUIntAs_enc 16 _ _ rest hn]
  | int8 hlo hhi => simp only [encodeValue, decodeValue, decodeIntAs_enc 1 _ _ rest hlo hhi]
  | int16 hlo hhi => simp only [encodeValue, decodeValue, decodeIntAs_enc 2 _ _ rest hlo hhi]
  | int32 hlo hhi => simp only [encodeValue, decodeValue, decodeIntAs_enc 4 _ _ rest hlo hhi]
  | int64 hlo hhi => simp only [encodeValue, decodeValue, decodeIntAs_enc 8 _ _ rest hlo hhi]
  | int128 hlo hhi =>
    simp only [encodeValue, decodeValue, decodeIntAs_enc 16 _ _ rest hlo hhi]
  | float32 hb => simp only [encodeValue, decodeValue, decodeUIntAs_enc 4 _ _ rest hb]
  | float64 hb => simp only [encodeValue, decodeValue, decodeUIntAs_enc 8 _ _ rest hb]
  | string hbs =>
    simp only [encodeValue, decodeValue, List.append_assoc, uvarintEnc_roundtrip,
      readBytes_roundtrip]
  | fixedString hlen hbs =>
    subst hlen
    simp only [encodeValue, decodeValue, readBytes_roundtrip]
  | decimal hlo hhi =>
    simp only [encodeValue, decodeValue, decodeIntAs_enc _ _ _ rest hlo hhi]
  | array hvs ih =>
    simp only [encodeValue, decodeValue, List.append_assoc, uvarintEnc_roundtrip,
      encDecList_of_ih _ _ ih rest]
  | nullableNone =>
    simp only [encodeValue, decodeValue, List.cons_append, List.nil_append]
  | nullableSome hv ih =>
    simp only [encodeValue, decodeValue, List.cons_append, ih rest]
  | tuple hlen hps ih =>
    simp only [encodeValue, decodeValue, encDecSeq_of_ih _ _ hlen ih rest]

mutual

theorem tyBeq_refl (t : Ty) : tyBeq t t = true := by
  cases t with
  | fixedString n => simp [tyBeq]
  | decimal p s => simp [tyBeq]
  | array t => simp [tyBeq, tyBeq_refl t]
  | nullable t => simp [tyBeq, tyBeq_refl t]
  | tuple ts => simp [tyBeq, tyBeqList_refl ts]
  | _ => simp [tyBeq]

theorem tyBeqList_refl (ts : List Ty) : tyBeqList ts ts = true := by
  cases ts with
  | nil => simp [tyBeqList]
  | cons t ts => simp [tyBeqList, tyBeq_refl t, tyBeqList_refl ts]

end

mutual

theorem tyBeq_sound (a b : Ty) (h : tyBeq a b = true) : a = b := by
  cases a <;> cases b <;> simp [tyBeq] at h <;> try rfl
  case fixedString.fixedString => simp [h]
  case decimal.decimal => simp [h.1, h.2]
  case array.array t u => simp [tyBeq_sound t u h]
  case nullable.nullable t u => simp [tyBeq_sound t u h]
  case tuple.tuple ts us => simp [tyBeqList_sound ts us h]

theorem tyBeqList_sound (ts us : List Ty) (h : tyBeqList ts us = true) : ts = us := by
  cases ts with
  | nil => cases us with
    | nil => rfl
    | cons u us => simp [tyBeqList] at h
  | cons t ts => cases us with
    | nil => simp [tyBeqList] at h
    | cons u us =>
      simp only [tyBeqList, Bool.and_eq_true] at h
      simp [tyBeq_sound t u h.1, tyBeqList_sound ts us h.2]

end

theorem tyBeq_eq_false_of_ne {a b : Ty} (h : a ≠ b) : tyBeq a b = false := by
  cases hab : tyBeq a b with
  | false => rfl
  | true => exact absurd (tyBeq_sound a b hab) h

theorem decodeUIntAs_truncated (w : Nat) (mk : Nat → Value) (bs : List Nat)
    (h : bs.length < w) : decodeUIntAs w mk bs = .error .truncated := by
  simp [decodeUIntAs, natFromLE_truncated w bs h]

theorem decodeIntAs_truncated (w : Nat) (mk : Int → Value) (bs : List Nat)
    (h : bs.length < w) : decodeIntAs w mk bs = .error .truncated := by
  simp [decodeIntAs, natFromLE_truncated w bs h]

theorem isIdentChar_ne (c : Char) (h : isIdentChar c = true) :
    c ≠ '(' ∧ c ≠ ')' ∧ c ≠ ',' := by
  refine ⟨?_, ?_, ?_⟩ <;> rintro rfl <;> exact absurd h (by decide)

theorem isDigit_ident (c : Char) (h : c.isDigit = true) : isIdentChar c = true := by
  simp [isIdentChar, h]

theorem isDigit_ne (c : Char) (h : c.isDigit = true) :
    c ≠ '(' ∧ c ≠ ')' ∧ c ≠ ',' :=
  isIdentChar_ne c (isDigit_ident c h)

theorem takeWhile_all_append (p : Char → Bool) (l1 : List Char) (a : Char) (l2 : List Char)
    (h1 : ∀ c ∈ l1, p c = true) (ha : p a = false) :
    (l1 ++ a :: l2).takeWhile p = l1 ∧ (l1 ++ a :: l2).dropWhile p = a :: l2 := by
  induction l1 with
  | nil => simp [List.takeWhile, List.dropWhile, ha]
  | cons c l1 ih =>
    have hc : p c = true := h1 c (List.mem_cons_self c l1)
    have := ih fun d hd => h1 d (List.mem_cons_of_mem c hd)
    simp [List.takeWhile, List.dropWhile, hc, this.1, this.2]

theorem takeWhile_all (p : Char → Bool) (l : List Char) (h : ∀ c ∈ l, p c = true) :
    l.takeWhile p = l ∧ l.dropWhile p = [] := by
  induction l with
  | nil => simp
  | cons c l ih =>
    have hc : p c = true := h c (List.mem_cons_self c l)
    have := ih fun d hd => h d (List.mem_cons_of_mem c hd)
    simp [List.takeWhile, List.dropWhile, hc, this.1, this.2]

theorem digitChar_isDigit (n : Nat) (h : n < 10) : (Nat.digitChar n).isDigit = true := by
  interval_cases n <;> decide

theorem digitChar_toNat (n : Nat) (h : n < 10) : (Nat.digitChar n).toNat = 48 + n := by
  interval_cases n <;> decide

theorem renderNatAux_digits (fuel n : Nat) :
    ∀ c ∈ renderNatAux fuel n, c.isDigit = true := by
  induction fuel generalizing n with
  | zero =>
    intro c hc
    simp only [renderNatAux, List.mem_singleton] at hc
    subst hc
    exact digitChar_isDigit _ (Nat.mod_lt _ (by omega))
  | succ fuel ih =>
    intro c hc
    by_cases h : n < 10
    · simp only [renderNatAux, if_pos h, List.mem_singleton] at hc
      subst hc
      exact digitChar_isDigit _ h
    · simp only [renderNatAux, if_neg h, List.mem_append, List.mem_singleton] at hc
      rcases hc with hc | hc
      · exact ih (n / 10) c hc
      · subst hc
        exact digitChar_isDigit _ (Nat.mod_lt _ (by omega))

theorem renderNat_digits (n : Nat) : ∀ c ∈ renderNat n, c.isDigit = true :=
  renderNatAux_digits n n

theorem renderNatAux_ne_nil (fuel n : Nat) : renderNatAux fuel n ≠ [] := by
  cases fuel with
  | zero => simp [renderNatAux]
  | succ fuel =>
    by_cases h : n < 10 <;> simp [renderNatAux, h]

theorem renderNatAux_foldl (fuel n : Nat) (hf : n ≤ fuel) (a : Nat) :
    (renderNatAux fuel n).foldl (fun a c => a * 10 + (c.toNat - 48)) a =
      a * 10 ^ (renderNatAux fuel n).length + n := by
  induction fuel generalizing n a with
  | zero =>
    have hn : n = 0 := by omega
    subst hn
    simp [renderNatAux, digitChar_toNat 0 (by omega)]
  | succ fuel ih =>
    by_cases h : n < 10
    · simp [renderNatAux, if_pos h, digitChar_toNat n h]
    · have hdiv : n / 10 ≤ fuel := by
        have : n / 10 < n := Nat.div_lt_self (by omega) (by omega)
        omega
      simp only [renderNatAux, if_neg h, List.foldl_append, List.length_append,
        ih (n / 10) hdiv a, List.foldl_cons, List.foldl_nil, List.length_cons,
        List.length_nil, digitChar_toNat (n % 10) (Nat.mod_lt _ (by omega))]
      have : 48 + n % 10 - 48 = n % 10 := by omega
      rw [this, pow_succ]
      have : n / 10 * 10 + n % 10 = n := by omega
      ring_nf
      omega

theorem parseNatParam_renderNat (n : Nat) : parseNatParam (renderNat n) = some n := by
  have hall : (renderNat n).all Char.isDigit = true := by
    rw [List.all_eq_true]
    exact renderNat_digits n
  have hne : renderNat n ≠ [] := renderNatAux_ne_nil n n
  rw [parseNatParam, if_pos (And.intro hne hall)]
  unfold digitsVal renderNat
  rw [renderNatAux_foldl n n (Nat.le_refl n) 0]
  simp

theorem netOk_append_of {xs : List Char} {d e : Nat} (h : netOk xs d = some e)
    (ys : List Char) : netOk (xs ++ ys) d = netOk ys e := by
  induction xs generalizing d with
  | nil => simp [netOk] at h; simp [h]
  | cons c xs ih =>
    by_cases h1 : c = '('
    · subst h1
      simp only [netOk, reduceIte] at h
      simpa [netOk] using ih h
    · by_cases h2 : c = ')'
      · subst h2
        by_cases hd : d = 0
        · simp [netOk, hd] at h
        · simp only [netOk, reduceIte, if_neg hd] at h
          simpa [netOk, hd] using ih h
      · simp only [netOk, if_neg h1, if_neg h2] at h
        simpa [netOk, h1, h2] using ih h

theorem netOk_neutral {xs : List Char} (h : ∀ c ∈ xs, c ≠ '(' ∧ c ≠ ')') (d : Nat) :
    netOk xs d = some d := by
  induction xs with
  | nil => simp [netOk]
  | cons c xs ih =>
    have hc := h c (List.mem_cons_self c xs)
    simp [netOk, hc.1, hc.2, ih fun c2 hc2 => h c2 (List.mem_cons_of_mem c hc2)]

theorem noTopComma_append_of {xs : List Char} {d e : Nat} (h : netOk xs d = some e)
    (hx : noTopComma xs d = true) {ys : List Char} (hy : noTopComma ys e = true) :
    noTopComma (xs ++ ys) d = true := by
  induction xs generalizing d with
  | nil => simp [netOk] at h; subst h; simpa using hy
  | cons c xs ih =>
    by_cases h1 : c = '('
    · subst h1
      simp only [netOk, reduceIte] at h
      simp only [noTopComma, reduceIte] at hx
      simpa [noTopComma] using ih h hx
    · by_cases h2 : c = ')'
      · subst h2
        by_cases hd : d = 0
        · simp [netOk, hd] at h
        · simp only [netOk, reduceIte, if_neg hd] at h
          simp only [noTopComma, reduceIte] at hx
          simpa [noTopComma, hd] using ih h hx
      · by_cases h3 : c = ','
        · subst h3
          have c1 : (',' : Char) ≠ '(' := by decide
          have c2 : (',' : Char) ≠ ')' := by decide
          simp only [netOk, if_neg c1, if_neg c2] at h
          simp only [noTopComma, if_neg c1, if_neg c2, reduceIte, Bool.and_eq_true,
            decide_eq_true_eq] at hx
          have := ih h hx.2
          simp only [List.cons_append, noTopComma, if_neg c1, if_neg c2, reduceIte,
            Bool.and_eq_true, decide_eq_true_eq]
          exact ⟨hx.1, this⟩
        · simp only [netOk, if_neg h1, if_neg h2] at h
          simp only [noTopComma, if_neg h1, if_neg h2, if_neg h3] at hx
          simpa [noTopComma, h1, h2, h3] using ih h hx

theorem noTopComma_neutral {xs : List Char}
    (h : ∀ c ∈ xs, c ≠ '(' ∧ c ≠ ')' ∧ c ≠ ',') (d : Nat) :
    noTopComma xs d = true := by
  induction xs with
  | nil => simp [noTopComma]
  | cons c xs ih =>
    have hc := h c (List.mem_cons_self c xs)
    simp [noTopComma, hc.1, hc.2.1, hc.2.2,
      ih fun c2 hc2 => h c2 (List.mem_cons_of_mem c hc2)]

theorem kwArray_ident : ∀ c ∈ kwArray, isIdentChar c = true := by decide

theorem kwNullable_ident : ∀ c ∈ kwNullable, isIdentChar c = true := by decide

theorem kwTuple_ident : ∀ c ∈ kwTuple, isIdentChar c = true := by decide

theorem kwFixedString_ident : ∀ c ∈ kwFixedString, isIdentChar c = true := by decide

theorem kwDecimal_ident : ∀ c ∈ kwDecimal, isIdentChar c = true := by decide

theorem ident_scan {xs : List Char} (h : ∀ c ∈ xs, isIdentChar c = true) (d : Nat) :
    netOk xs d = some d ∧ noTopComma xs d = true := by
  refine ⟨netOk_neutral (fun c hc => ?_) d, noTopComma_neutral (fun c hc => ?_) d⟩
  · exact ⟨(isIdentChar_ne c (h c hc)).1, (isIdentChar_ne c (h c hc)).2.1⟩
  · exact isIdentChar_ne c (h c hc)

theorem digit_scan {xs : List Char} (h : ∀ c ∈ xs, c.isDigit = true) (d : Nat) :
    netOk xs d = some d ∧ noTopComma xs d = true :=
  ident_scan (fun c hc => isDigit_ident c (h c hc)) d

theorem netOk_wrap {kw inner : List Char} (hkw : ∀ c ∈ kw, isIdentChar c = true)
    (hin : ∀ d2, netOk inner d2 = some d2) (d : Nat) :
    netOk (kw ++ '(' :: inner ++ [')']) d = some d := by
  simp only [List.append_assoc, List.cons_append]
  rw [netOk_append_of ((ident_scan hkw d).1)]
  simp only [netOk, reduceIte]
  rw [netOk_append_of (hin (d + 1))]
  simp [netOk]

theorem noTopComma_wrap {kw inner : List Char} (hkw : ∀ c ∈ kw, isIdentChar c = true)
    (hinNet : ∀ d2, netOk inner d2 = some d2)
    (hin : ∀ d2, d2 ≠ 0 → noTopComma inner d2 = true) (d : Nat) :
    noTopComma (kw ++ '(' :: inner ++ [')']) d = true := by
  simp only [List.append_assoc, List.cons_append]
  apply noTopComma_append_of ((ident_scan hkw d).1) ((ident_scan hkw d).2)
  simp only [noTopComma, reduceIte]
  apply noTopComma_append_of (hinNet (d + 1)) (hin (d + 1) (by omega))
  simp [noTopComma]

theorem comma_cons_netOk {xs : List Char} {d e : Nat} (h : netOk xs d = some e) :
    netOk (',' :: xs) d = some e := by
  have c1 : (',' : Char) ≠ '(' := by decide
  have c2 : (',' : Char) ≠ ')' := by decide
  simp [netOk, c1, c2, h]

theorem comma_cons_noTopComma {xs : List Char} {d : Nat} (hd : d ≠ 0)
    (h : noTopComma xs d = true) : noTopComma (',' :: xs) d = true := by
  have c1 : (',' : Char) ≠ '(' := by decide
  have c2 : (',' : Char) ≠ ')' := by decide
  simp [noTopComma, c1, c2, hd, h]

mutual

theorem renderTy_scan (t : Ty) :
    ∀ d, netOk (renderTy t) d = some d ∧ noTopComma (renderTy t) d = true := by
  cases t with
  | uint8 => intro d; simp only [renderTy]; exact ident_scan (by decide) d
  | uint16 => intro d; simp only [renderTy]; exact ident_scan (by decide) d
  | uint32 => intro d; simp only [renderTy]; exact ident_scan (by decide) d
  | uint64 => intro d; simp only [renderTy]; exact ident_scan (by decide) d
  | uint128 => intro d; simp only [renderTy]; exact ident_scan (by decide) d
  | int8 => intro d; simp only [renderTy]; exact ident_scan (by decide) d
  | int16 => intro d; simp only [renderTy]; exact ident_scan (by decide) d
  | int32 => intro d; simp only [renderTy]; exact ident_scan (by decide) d
  | int64 => intro d; simp only [renderTy]; exact ident_scan (by decide) d
  | int128 => intro d; simp only [renderTy]; exact ident_scan (by decide) d
  | float32 => intro d; simp only [renderTy]; exact ident_scan (by decide) d
  | float64 => intro d; simp only [renderTy]; exact ident_scan (by decide) d
  | string => intro d; simp only [renderTy]; exact ident_scan (by decide) d
  | fixedString n =>
    intro d
    simp only [renderTy]
    exact ⟨netOk_wrap kwFixedString_ident (fun d2 => (digit_scan (renderNat_digits n) d2).1) d,
      noTopComma_wrap kwFixedString_ident (fun d2 => (digit_scan (renderNat_digits n) d2).1)
        (fun d2 _ => (digit_scan (renderNat_digits n) d2).2) d⟩
  | decimal p s =>
    intro d
    simp only [renderTy]
    have hnet : ∀ d2, netOk (renderNat p ++ ',' :: renderNat s) d2 = some d2 := by
      intro d2
      rw [netOk_append_of ((digit_scan (renderNat_digits p) d2).1)]
      exact comma_cons_netOk ((digit_scan (renderNat_digits s) d2).1)
    have hcom : ∀ d2, d2 ≠ 0 → noTopComma (renderNat p ++ ',' :: renderNat s) d2 = true := by
      intro d2 hd2
      apply noTopComma_append_of ((digit_scan (renderNat_digits p) d2).1)
        ((digit_scan (renderNat_digits p) d2).2)
      exact comma_cons_noTopComma hd2 ((digit_scan (renderNat_digits s) d2).2)
    exact ⟨netOk_wrap kwDecimal_ident hnet d, noTopComma_wrap kwDecimal_ident hnet hcom d⟩
  | array t =>
    intro d
    simp only [renderTy]
    exact ⟨netOk_wrap kwArray_ident (fun d2 => (renderTy_scan t d2).1) d,
      noTopComma_wrap kwArray_ident (fun d2 => (renderTy_scan t d2).1)
        (fun d2 _ => (renderTy_scan t d2).2) d⟩
  | nullable t =>
    intro d
    simp only [renderTy]
    exact ⟨netOk_wrap kwNullable_ident (fun d2 => (renderTy_scan t d2).1) d,
      noTopComma_wrap kwNullable_ident (fun d2 => (renderTy_scan t d2).1)
        (fun d2 _ => (renderTy_scan t d2).2) d⟩
  | tuple ts =>
    intro d
    simp only [renderTy]
    exact ⟨netOk_wrap kwTuple_ident (fun d2 => (renderTyList_scan ts d2).1) d,
      noTopComma_wrap kwTuple_ident (fun d2 => (renderTyList_scan ts d2).1)
        (fun d2 hd2 => (renderTyList_scan ts d2).2 hd2) d⟩

theorem renderTyList_scan (ts : List Ty) :
    ∀ d, netOk (renderTyList ts) d = some d ∧
      (d ≠ 0 → noTopComma (renderTyList ts) d = true) := by
  cases ts with
  | nil => intro d; simp [renderTyList, netOk, noTopComma]
  | cons t ts =>
    cases ts with
    | nil =>
      intro d
      simp only [renderTyList]
      exact ⟨(renderTy_scan t d).1, fun _ => (renderTy_scan t d).2⟩
    | cons t2 ts2 =>
      intro d
      simp only [renderTyList]
      constructor
      · rw [netOk_append_of ((renderTy_scan t d).1)]
        exact comma_cons_netOk ((renderTyList_scan (t2 :: ts2) d).1)
      · intro hd
        apply noTopComma_append_of ((renderTy_scan t d).1) ((renderTy_scan t d).2)
        exact comma_cons_noTopComma hd ((renderTyList_scan (t2 :: ts2) d).2 hd)

end

theorem splitTopAux_through {p : List Char} : ∀ {d e : Nat}, netOk p d = some e →
    noTopComma p d = true → ∀ (acc tail : List Char),
    splitTopAux (p ++ tail) d acc = splitTopAux tail e (p.reverse ++ acc) := by
  induction p with
  | nil =>
    intro d e h _ acc tail
    simp only [netOk, Option.some_inj] at h
    subst h
    simp
  | cons c p ih =>
    intro d e h hc acc tail
    by_cases h1 : c = '('
    · subst h1
      have e1 : (('(' : Char) = ')') = False := by simp
      simp only [netOk, reduceIte] at h
      simp only [noTopComma, reduceIte] at hc
      have hcond : ¬ (('(' : Char) = ',' ∧ d = 0) := by simp
      simp only [List.cons_append, splitTopAux, if_neg hcond, reduceIte, List.append_eq]
      rw [ih h hc ('(' :: acc) tail]
      simp
    · by_cases h2 : c = ')'
      · subst h2
        by_cases hd : d = 0
        · simp [netOk, hd] at h
        · have e1 : ((')' : Char) = '(') = False := by simp
          simp only [netOk, e1, if_false, reduceIte, if_neg hd] at h
          simp only [noTopComma, e1, if_false, reduceIte] at hc
          have hcond : ¬ ((')' : Char) = ',' ∧ d = 0) := by simp [hd]
          simp only [List.cons_append, splitTopAux, if_neg hcond, e1, if_false, reduceIte,
            List.append_eq]
          rw [ih h hc (')' :: acc) tail]
          simp
      · by_cases h3 : c = ','
        · subst h3
          have e1 : ((',' : Char) = '(') = False := by simp
          have e2 : ((',' : Char) = ')') = False := by simp
          simp only [netOk, e1, e2, if_false] at h
          simp only [noTopComma, e1, e2, if_false, reduceIte, Bool.and_eq_true,
            decide_eq_true_eq] at hc
          simp only [List.cons_append, splitTopAux, e1, e2, List.append_eq]
          rw [if_neg (show ¬ (True ∧ d = 0) by simp [hc.1])]
          simp only [if_false]
          rw [ih h hc.2 (',' :: acc) tail]
          simp
        · have e1 : (c = '(') = False := by simp [h1]
          have e2 : (c = ')') = False := by simp [h2]
          simp only [netOk, e1, e2, if_false] at h
          simp only [noTopComma, e1, e2, if_false, if_neg h3] at hc
          have hcond : ¬ (c = ',' ∧ d = 0) := by simp [h3]
          simp only [List.cons_append, splitTopAux, if_neg hcond, e1, e2, if_false,
            List.append_eq]
          rw [ih h hc (c :: acc) tail]
          simp

theorem splitTopLevel_single {p : List Char} (hb : netOk p 0 = some 0)
    (hc : noTopComma p 0 = true) : splitTopLevel p = [p] := by
  unfold splitTopLevel
  rw [show p = p ++ [] from (List.append_nil p).symm] at hb hc ⊢
  rw [splitTopAux_through (by simpa using hb) (by simpa using hc) [] []]
  simp [splitTopAux]

theorem splitTopLevel_cons {p rest : List Char} (hb : netOk p 0 = some 0)
    (hc : noTopComma p 0 = true) :
    splitTopLevel (p ++ ',' :: rest) = p :: splitTopLevel rest := by
  unfold splitTopLevel
  rw [splitTopAux_through hb hc [] (',' :: rest)]
  have hcond : ((',' : Char) = ',' ∧ (0 : Nat) = 0) := by simp
  simp [splitTopAux, if_pos hcond]

theorem splitTopLevel_renderTyList (ts : List Ty) (h : ts ≠ []) :
    splitTopLevel (renderTyList ts) = ts.map renderTy := by
  induction ts with
  | nil => exact absurd rfl h
  | cons t ts ih =>
    cases ts with
    | nil =>
      simp only [renderTyList, List.map]
      exact splitTopLevel_single ((renderTy_scan t 0).1) ((renderTy_scan t 0).2)
    | cons t2 ts2 =>
      simp only [renderTyList, List.map]
      rw [splitTopLevel_cons ((renderTy_scan t 0).1) ((renderTy_scan t 0).2),
        ih (by simp)]
      simp only [List.map]

theorem mem_renderTyList_le {t : Ty} {ts : List Ty} (h : t ∈ ts) :
    (renderTy t).length ≤ (renderTyList ts).length := by
  induction ts with
  | nil => simp at h
  | cons t2 ts ih =>
    cases ts with
    | nil =>
      simp only [List.mem_singleton] at h
      subst h
      simp [renderTyList]
    | cons t3 ts3 =>
      rcases List.mem_cons.mp h with rfl | h2
      · simp [renderTyList]
      · have := ih h2
        simp only [renderTyList, List.length_append, List.length_cons]
        omega

theorem parseParams_map (r : List Char → Except CodecError Ty) (ts : List Ty)
    (h : ∀ t ∈ ts, r (renderTy t) = .ok t) :
    parseParams r (ts.map renderTy) = .ok ts := by
  induction ts with
  | nil => simp [parseParams]
  | cons t ts ih =>
    simp only [List.map, parseParams, h t (List.mem_cons_self t ts),
      ih fun t2 ht2 => h t2 (List.mem_cons_of_mem t ht2)]

theorem parseWith_split (r : List Char → Except CodecError Ty) {kw inner : List Char}
    (hkw : ∀ c ∈ kw, isIdentChar c = true) (hbal : netOk inner 0 = some 0) :
    parseWith r (kw ++ '(' :: inner ++ [')']) = dispatchParams r kw (splitTopLevel inner) := by
  have hsplit := takeWhile_all_append isIdentChar kw '(' (inner ++ [')']) hkw (by decide)
  have hshape : kw ++ '(' :: inner ++ [')'] = kw ++ '(' :: (inner ++ [')']) := by
    simp
  rw [hshape]
  unfold parseWith
  rw [hsplit.1, hsplit.2]
  have hlast : (inner ++ [')']).getLast? = some ')' := List.getLast?_concat _
  have hdrop : (inner ++ [')']).dropLast = inner := List.dropLast_concat
  simp only [hlast, hdrop, reduceIte, hbal]

theorem parseTyF_render {t : Ty} (h : WfTy t) :
    ∀ fuel, (renderTy t).length < fuel → parseTyF fuel (renderTy t) = .ok t := by
  induction h with
  | uint8 =>
    intro fuel hf
    cases fuel with
    | zero => omega
    | succ f => simp only [renderTy]; rfl
  | uint16 =>
    intro fuel hf
    cases fuel with
    | zero => omega
    | succ f => simp only [renderTy]; rfl
  | uint32 =>
    intro fuel hf
    cases fuel with
    | zero => omega
    | succ f => simp only [renderTy]; rfl
  | uint64 =>
    intro fuel hf
    cases fuel with
    | zero => omega
    | succ f => simp only [renderTy]; rfl
  | uint128 =>
    intro fuel hf
    cases fuel with
    | zero => omega
    | succ f => simp only [renderTy]; rfl
  | int8 =>
    intro fuel hf
    cases fuel with
    | zero => omega
    | succ f => simp only [renderTy]; rfl
  | int16 =>
    intro fuel hf
    cases fuel with
    | zero => omega
    | succ f => simp only [renderTy]; rfl
  | int32 =>
    intro fuel hf
    cases fuel with
    | zero => omega
    | succ f => simp only [renderTy]; rfl
  | int64 =>
    intro fuel hf
    cases fuel with
    | zero => omega
    | succ f => simp only [renderTy]; rfl
  | int128 =>
    intro fuel hf
    cases fuel with
    | zero => omega
    | succ f => simp only [renderTy]; rfl
  | float32 =>
    intro fuel hf
    cases fuel with
    | zero => omega
    | succ f => simp only [renderTy]; rfl
  | float64 =>
    intro fuel hf
    cases fuel with
    | zero => omega
    | succ f => simp only [renderTy]; rfl
  | string =>
    intro fuel hf
    cases fuel with
    | zero => omega
    | succ f => simp only [renderTy]; rfl
  | @fixedString n hn =>
    intro fuel hf
    cases fuel with
    | zero => omega
    | succ f =>
      simp only [renderTy]
      show parseWith (parseTyF f) _ = _
      rw [parseWith_split (parseTyF f) kwFixedString_ident
        ((digit_scan (renderNat_digits _) 0).1)]
      rw [splitTopLevel_single ((digit_scan (renderNat_digits _) 0).1)
        ((digit_scan (renderNat_digits _) 0).2)]
      have d1 : kwFixedString ≠ kwArray := by decide
      have d2 : kwFixedString ≠ kwNullable := by decide
      have d3 : kwFixedString ≠ kwTuple := by decide
      simp only [dispatchParams, if_neg d1, if_neg d2, if_neg d3, reduceIte,
        parseNatParam_renderNat]
  | @decimal p s =>
    intro fuel hf
    cases fuel with
    | zero => omega
    | succ f =>
      simp only [renderTy]
      show parseWith (parseTyF f) _ = _
      have hnet : netOk (renderNat p ++ ',' :: renderNat s) 0 = some 0 := by
        rw [netOk_append_of ((digit_scan (renderNat_digits p) 0).1)]
        exact comma_cons_netOk ((digit_scan (renderNat_digits s) 0).1)
      have hshape : kwDecimal ++ '(' :: renderNat p ++ ',' :: renderNat s ++ [')'] =
          kwDecimal ++ '(' :: (renderNat p ++ ',' :: renderNat s) ++ [')'] := by
        simp [List.append_assoc]
      rw [hshape, parseWith_split (parseTyF f) kwDecimal_ident hnet]
      rw [splitTopLevel_cons ((digit_scan (renderNat_digits p) 0).1)
        ((digit_scan (renderNat_digits p) 0).2)]
      rw [splitTopLevel_single ((digit_scan (renderNat_digits s) 0).1)
        ((digit_scan (renderNat_digits s) 0).2)]
      have d1 : kwDecimal ≠ kwArray := by decide
      have d2 : kwDecimal ≠ kwNullable := by decide
      have d3 : kwDecimal ≠ kwTuple := by decide
      have d4 : kwDecimal ≠ kwFixedString := by decide
      simp only [dispatchParams, if_neg d1, if_neg d2, if_neg d3, if_neg d4, reduceIte,
        parseNatParam_renderNat]
  | @array t2 hwt ih =>
    intro fuel hf
    cases fuel with
    | zero => omega
    | succ f =>
      simp only [renderTy] at hf ⊢
      show parseWith (parseTyF f) _ = _
      rw [parseWith_split (parseTyF f) kwArray_ident ((renderTy_scan t2 0).1)]
      rw [splitTopLevel_single ((renderTy_scan t2 0).1) ((renderTy_scan t2 0).2)]
      have hlen : (renderTy t2).length < f := by
        simp only [List.length_append, List.length_cons] at hf
        omega
      simp only [dispatchParams, reduceIte, ih f hlen]
  | @nullable t2 hwt ih =>
    intro fuel hf
    cases fuel with
    | zero => omega
    | succ f =>
      simp only [renderTy] at hf ⊢
      show parseWith (parseTyF f) _ = _
      rw [parseWith_split (parseTyF f) kwNullable_ident ((renderTy_scan t2 0).1)]
      rw [splitTopLevel_single ((renderTy_scan t2 0).1) ((renderTy_scan t2 0).2)]
      have d1 : kwNullable ≠ kwArray := by decide
      have hlen : (renderTy t2).length < f := by
        simp only [List.length_append, List.length_cons] at hf
        omega
      simp only [dispatchParams, if_neg d1, reduceIte, ih f hlen]
  | @tuple ts hne hts ih =>
    intro fuel hf
    cases fuel with
    | zero => omega
    | succ f =>
      simp only [renderTy] at hf ⊢
      show parseWith (parseTyF f) _ = _
      rw [parseWith_split (parseTyF f) kwTuple_ident ((renderTyList_scan ts 0).1)]
      rw [splitTopLevel_renderTyList ts hne]
      have d1 : kwTuple ≠ kwArray := by decide
      have d2 : kwTuple ≠ kwNullable := by decide
      have hrec : ∀ t2 ∈ ts, parseTyF f (renderTy t2) = .ok t2 := by
        intro t2 ht2
        apply ih t2 ht2 f
        have h1 := mem_renderTyList_le ht2
        simp only [List.length_append, List.length_cons] at hf
        omega
      simp only [dispatchParams, if_neg d1, if_neg d2, reduceIte,
        parseParams_map (parseTyF f) ts hrec]

/-- Parsing the rendered signature of a well-formed Type Descriptor gives
back exactly that descriptor (header agreement, sections 4.3 and 8). -/
theorem parseTy_renderTy {t : Ty} (h : WfTy t) : parseTy (renderTy t) = .ok t :=
  parseTyF_render h _ (Nat.lt_succ_self _)

theorem decodeString_enc (s rest : List Nat) :
    decodeString (encodeString s ++ rest) = .ok (s, rest) := by
  simp only [encodeString, decodeString, List.append_assoc, uvarintEnc_roundtrip,
    readBytes_roundtrip]

theorem map_ofNat_toNat (cs : List Char) : (cs.map Char.toNat).map Char.ofNat = cs := by
  induction cs with
  | nil => rfl
  | cons c cs ih => simp [Char.ofNat_toNat, ih]

theorem skipNames_write (schema : List Field) (rest : List Nat) :
    skipNames schema.length (writeNamesHeader schema ++ rest) = .ok rest := by
  induction schema with
  | nil => simp [writeNamesHeader, skipNames]
  | cons f fs ih =>
    simp only [writeNamesHeader, List.length_cons, List.append_assoc, skipNames,
      decodeString_enc, ih]

theorem checkTypesHeader_write_ok {s1 s2 : List Field} (h1 : WfSchema s1)
    (heq : s1.map Field.ty = s2.map Field.ty) (rest : List Nat) :
    checkTypesHeader s2 (writeNamesTypesHeader s1 ++ rest) = .ok rest := by
  induction s1 generalizing s2 with
  | nil =>
    cases s2 with
    | nil => simp [writeNamesTypesHeader, checkTypesHeader]
    | cons f2 fs2 => simp at heq
  | cons f1 fs1 ih =>
    cases s2 with
    | nil => simp at heq
    | cons f2 fs2 =>
      simp only [List.map, List.cons.injEq] at heq
      have hwf1 : WfTy f1.ty := h1 f1 (List.mem_cons_self f1 fs1)
      have hty : f1.ty = f2.ty := heq.1
      have hwf2 : WfTy f2.ty := hty ▸ hwf1
      simp only [writeNamesTypesHeader, List.append_assoc, checkTypesHeader,
        decodeString_enc, typeSignatureBytes, hty, map_ofNat_toNat,
        parseTy_renderTy hwf2]
      rw [tyBeq_refl, if_pos rfl]
      exact ih (fun f hf => h1 f (List.mem_cons_of_mem f1 hf)) heq.2

theorem checkTypesHeader_write_mismatch {s1 s2 : List Field} (h1 : WfSchema s1)
    (hlen : s1.length = s2.length) (hne : s1.map Field.ty ≠ s2.map Field.ty)
    (rest : List Nat) :
    checkTypesHeader s2 (writeNamesTypesHeader s1 ++ rest) = .error .schemaMismatch := by
  induction s1 generalizing s2 with
  | nil =>
    cases s2 with
    | nil => simp at hne
    | cons f2 fs2 => simp at hlen
  | cons f1 fs1 ih =>
    cases s2 with
    | nil => simp at hlen
    | cons f2 fs2 =>
      have hwf1 : WfTy f1.ty := h1 f1 (List.mem_cons_self f1 fs1)
      simp only [writeNamesTypesHeader, List.append_assoc, checkTypesHeader,
        decodeString_enc, typeSignatureBytes, map_ofNat_toNat, parseTy_renderTy hwf1]
      by_cases hhd : f1.ty = f2.ty
      · rw [hhd, tyBeq_refl, if_pos rfl]
        apply ih (fun f hf => h1 f (List.mem_cons_of_mem f1 hf))
        · simpa using hlen
        · intro htl
          exact hne (by simp [List.map, hhd, htl])
      · rw [tyBeq_eq_false_of_ne hhd]
        simp

theorem readHeader_write (format : RowBinaryFormat) {schema : List Field}
    (hwf : WfSchema schema) (rest : List Nat) :
    readHeader format schema (writeHeader format schema ++ rest) = .ok rest := by
  cases format with
  | rowBinary => simp [readHeader, writeHeader]
  | rowBinaryWithNames =>
    simp only [readHeader, writeHeader, List.append_assoc, uvarintEnc_roundtrip,
      reduceIte, skipNames_write]
  | rowBinaryWithNamesAndTypes =>
    simp only [readHeader, writeHeader, List.append_assoc, uvarintEnc_roundtrip,
      reduceIte, checkTypesHeader_write_ok hwf rfl]

theorem uvarintEnc_ne_nil (n : Nat) : uvarintEnc n ≠ [] := by
  unfold uvarintEnc
  cases n with
  | zero => simp [uvarintEncAux]
  | succ m =>
    by_cases h : m + 1 < 128 <;> simp [uvarintEncAux, h]

theorem decimalWidth_pos (p : Nat) : 0 < decimalWidth p := by
  unfold decimalWidth
  split <;> [omega; split <;> omega]

theorem natToLE_ne_nil {w : Nat} (hw : 0 < w) (n : Nat) : natToLE w n ≠ [] := by
  cases w with
  | zero => omega
  | succ w2 => simp [natToLE]

theorem encodeValue_ne_nil {t : Ty} {v : Value} (h : ValidFor t v) :
    WfTy t → encodeValue t v ≠ [] := by
  induction h with
  | uint8 hn => intro _; simp only [encodeValue]; exact natToLE_ne_nil (by omega) _
  | uint16 hn => intro _; simp only [encodeValue]; exact natToLE_ne_nil (by omega) _
  | uint32 hn => intro _; simp only [encodeValue]; exact natToLE_ne_nil (by omega) _
  | uint64 hn => intro _; simp only [encodeValue]; exact natToLE_ne_nil (by omega) _
  | uint128 hn => intro _; simp only [encodeValue]; exact natToLE_ne_nil (by omega) _
  | int8 hlo hhi => intro _; simp only [encodeValue]; exact natToLE_ne_nil (by omega) _
  | int16 hlo hhi => intro _; simp only [encodeValue]; exact natToLE_ne_nil (by omega) _
  | int32 hlo hhi => intro _; simp only [encodeValue]; exact natToLE_ne_nil (by omega) _
  | int64 hlo hhi => intro _; simp only [encodeValue]; exact natToLE_ne_nil (by omega) _
  | int128 hlo hhi => intro _; simp only [encodeValue]; exact natToLE_ne_nil (by omega) _
  | float32 hb => intro _; simp only [encodeValue]; exact natToLE_ne_nil (by omega) _
  | float64 hb => intro _; simp only [encodeValue]; exact natToLE_ne_nil (by omega) _
  | string hbs =>
    intro _
    simp only [encodeValue]
    simp [List.append_eq_nil, uvarintEnc_ne_nil]
  | fixedString hlen hbs =>
    intro hw
    cases hw with
    | fixedString hn =>
      simp only [encodeValue]
      intro hcon
      rw [hcon] at hlen
      simp at hlen
      omega
  | decimal hlo hhi =>
    intro _
    simp only [encodeValue]
    exact natToLE_ne_nil (decimalWidth_pos _) _
  | array hvs ih =>
    intro _
    simp only [encodeValue]
    simp [List.append_eq_nil, uvarintEnc_ne_nil]
  | nullableNone => intro _; simp [encodeValue]
  | nullableSome hv ih => intro _; simp [encodeValue]
  | tuple hlen hps ih =>
    intro hw
    cases hw with
    | tuple hne hts =>
      rename_i ts vs
      cases ts with
      | nil => exact absurd rfl hne
      | cons t1 ts2 =>
        cases vs with
        | nil => simp at hlen
        | cons v1 vs2 =>
          simp only [encodeValue, encodeSeq]
          have h1 : encodeValue t1 v1 ≠ [] := by
            apply ih (t1, v1) (by simp [List.zip_cons_cons])
            exact hts t1 (List.mem_cons_self t1 ts2)
          simp [List.append_eq_nil, h1]

theorem writeRow_ne_nil {schema : List Field} {row : Row} (hv : ValidRow schema row)
    (hwf : WfSchema schema) (hs : schema ≠ []) : writeRow schema row ≠ [] := by
  have hwt : WfTy (.tuple (schema.map Field.ty)) := by
    apply WfTy.tuple
    · simp [hs]
    · intro t ht
      rcases List.mem_map.mp ht with ⟨f, hf, rfl⟩
      exact hwf f hf
  have := encodeValue_ne_nil hv hwt
  simpa only [encodeValue, writeRow] using this

theorem readRow_write {schema : List Field} {row : Row} (hv : ValidRow schema row)
    (rest : List Nat) (hne : writeRow schema row ++ rest ≠ []) :
    readRow schema (writeRow schema row ++ rest) = .ok (row, rest) := by
  unfold readRow
  rw [if_neg (by simpa [List.isEmpty_iff] using hne)]
  cases hv with
  | tuple hlen hps =>
    rw [show writeRow schema row = encodeSeq (schema.map Field.ty) row from rfl]
    rw [encDecSeq_of_ih _ _ hlen (fun p hp rest2 => encDecValue (hps p hp) rest2) rest]

theorem readRowsAux_write {schema : List Field} (hwf : WfSchema schema)
    (hs : schema ≠ []) (rows : List Row) :
    ∀ fuel, (∀ r ∈ rows, ValidRow schema r) → (writeRows schema rows).length < fuel →
    readRowsAux schema fuel (writeRows schema rows) = .ok rows := by
  induction rows with
  | nil =>
    intro fuel hv hfuel
    cases fuel with
    | zero => omega
    | succ f =>
      simp [writeRows, readRowsAux, readRow]
  | cons r rs ih =>
    intro fuel hv hfuel
    cases fuel with
    | zero =>
      simp only [writeRows, List.length_append] at hfuel
      omega
    | succ f =>
      have hvr : ValidRow schema r := hv r (List.mem_cons_self r rs)
      have hrow_ne : writeRow schema r ≠ [] := writeRow_ne_nil hvr hwf hs
      have hbytes_ne : writeRow schema r ++ writeRows schema rs ≠ [] := by
        simp [List.append_eq_nil, hrow_ne]
      simp only [writeRows, readRowsAux, readRow_write hvr (writeRows schema rs) hbytes_ne]
      have hlen1 : 1 ≤ (writeRow schema r).length := by
        cases hcase : writeRow schema r with
        | nil => exact absurd hcase hrow_ne
        | cons a l => simp
      have hfuel2 : (writeRows schema rs).length < f := by
        simp only [writeRows, List.length_append] at hfuel
        omega
      rw [ih f (fun r2 hr2 => hv r2 (List.mem_cons_of_mem r hr2)) hfuel2]

/-- Round trip of the full pipeline: for any Format variant, any
well-formed non-empty Schema and any list of valid rows, decoding the
bytes the Writer produces yields exactly those rows (sections 4.4, 4.5
and 8). -/
theorem decodeRows_encodeRows (format : RowBinaryFormat) {schema : List Field}
    {rows : List Row} (hwf : WfSchema schema) (hs : schema ≠ [])
    (hv : ∀ r ∈ rows, ValidRow schema r) :
    decodeRows format schema (encodeRows format schema rows) = .ok rows := by
  unfold decodeRows encodeRows
  rw [readHeader_write format hwf (writeRows schema rows)]
  exact readRowsAux_write hwf hs rows _ hv (Nat.lt_succ_self _)

theorem natToLE_getElem? (w n i : Nat) (hi : i < w) :
    (natToLE w n)[i]? = some (n / 256 ^ i % 256) := by
  induction w generalizing n i with
  | zero => omega
  | succ w ih =>
    cases i with
    | zero => simp [natToLE]
    | succ i =>
      simp only [natToLE, List.getElem?_cons_succ, ih _ i (by omega)]
      rw [Nat.div_div_eq_div_mul]
      ring_nf

/-- C1: for every supported Type Descriptor `t` and every Value `v` whose
tag structurally matches `t` (and whose descriptor is well formed, as
every parser-produced descriptor is), decoding the bytes produced by
encoding `v` under `t` yields exactly `v`, under each of the three Format
variants. -/
theorem claim1_roundtrip (format : RowBinaryFormat) (name : List Nat) (t : Ty) (v : Value)
    (hw : WfTy t) (hv : ValidFor t v) :
    decodeRows format [⟨name, t⟩] (encodeRows format [⟨name, t⟩] [[v]]) = .ok [[v]] := by
  apply decodeRows_encodeRows format
  · intro f hf
    rcases List.mem_singleton.mp hf with rfl
    exact hw
  · simp
  · intro r hr
    rcases List.mem_singleton.mp hr with rfl
    refine ValidFor.tuple (by simp) ?_
    intro p hp
    simp only [List.map, List.zip_cons_cons, List.zip_nil_right, List.mem_singleton] at hp
    subst hp
    exact hv

/-- Closed witness for C1 at `UInt8` with value 7 under the
names-and-types variant. -/
theorem claim1_witness :
    WfTy Ty.uint8 ∧ ValidFor Ty.uint8 (Value.uint8 7) ∧
    decodeRows .rowBinaryWithNamesAndTypes [⟨[], Ty.uint8⟩]
      (encodeRows .rowBinaryWithNamesAndTypes [⟨[], Ty.uint8⟩] [[Value.uint8 7]]) =
      .ok [[Value.uint8 7]] :=
  ⟨WfTy.uint8, ValidFor.uint8 (by norm_num),
    claim1_roundtrip .rowBinaryWithNamesAndTypes [] Ty.uint8 (Value.uint8 7)
      WfTy.uint8 (ValidFor.uint8 (by norm_num))⟩

/-- C2: for the schema `[("value", Array(UInt8))]` — as built by
`Schema::from_type_strings` — and the rows `[[1,2,3]]` then `[[]]`,
encoding with the Writer and decoding with the Reader reproduces exactly
those rows under each of the three Format variants. -/
theorem claim2_array_uint8_end_to_end :
    fromTypeStrings [(nmValue, sigArrayUInt8)] = .ok schemaArrayUInt8 ∧
    ∀ format, decodeRows format schemaArrayUInt8
      (encodeRows format schemaArrayUInt8 rowsArrayUInt8) = .ok rowsArrayUInt8 := by
  constructor
  · rfl
  · intro format
    apply decodeRows_encodeRows format
    · intro f hf
      simp only [schemaArrayUInt8, List.mem_singleton] at hf
      subst hf
      exact WfTy.array WfTy.uint8
    · simp [schemaArrayUInt8]
    · intro r hr
      simp only [rowsArrayUInt8, List.mem_cons, List.not_mem_nil, or_false] at hr
      have hvalid : ∀ vs : List Value, (∀ v ∈ vs, ValidFor Ty.uint8 v) →
          ValidRow schemaArrayUInt8 [Value.array vs] := by
        intro vs hvs
        refine ValidFor.tuple (by simp [schemaArrayUInt8]) ?_
        intro p hp
        simp only [schemaArrayUInt8, List.map, List.zip_cons_cons, List.zip_nil_right,
          List.mem_singleton] at hp
        subst hp
        exact ValidFor.array hvs
      rcases hr with rfl | rfl
      · refine hvalid _ ?_
        intro v hv
        simp only [List.mem_cons, List.not_mem_nil, or_false] at hv
        rcases hv with rfl | rfl | rfl <;> exact ValidFor.uint8 (by norm_num)
      · refine hvalid _ ?_
        intro v hv
        simp at hv

/-- C3: `read_row` distinguishes the normal stream end from truncation —
on an exhausted source (zero bytes of a new row consumed) it signals
`endOfStream`, and it can fail with `truncated` only when the source was
not already exhausted at the row boundary. -/
theorem claim3_end_of_stream_vs_truncated (schema : List Field) :
    readRow schema [] = .error .endOfStream ∧
    ∀ bs : List Nat, readRow schema bs = .error .truncated → bs ≠ [] := by
  constructor
  · rfl
  · intro bs h hbs
    subst hbs
    rw [show readRow schema [] = .error .endOfStream from rfl] at h
    simp at h

/-- Closed witness for C3: one byte of a two-byte `UInt16` cell is a row
that began but cannot complete. -/
theorem claim3_witness :
    readRow schemaU16 [5] = .error .truncated ∧ ([5] : List Nat) ≠ [] := by
  have h : readRow schemaU16 [5] = .error .truncated := by
    simp [readRow, schemaU16, decodeSeq, decodeValue, decodeUIntAs, natFromLE]
  exact ⟨h, (claim3_end_of_stream_vs_truncated schemaU16).2 [5] h⟩

/-- C4: reading a header-bearing stream written for schema `s1` with a
caller-supplied schema `s2`: a column-count difference is
`schemaMismatch` under both header variants; under names-and-types a
structural type difference at some position is `schemaMismatch`; and when
the types agree positionally the header is accepted regardless of the
column names (binding is positional). -/
theorem claim4_header_schema_checks (s1 s2 : List Field) (hwf : WfSchema s1)
    (rest : List Nat) :
    (s1.length ≠ s2.length →
      readHeader .rowBinaryWithNames s2 (writeHeader .rowBinaryWithNames s1 ++ rest) =
        .error .schemaMismatch ∧
      readHeader .rowBinaryWithNamesAndTypes s2
        (writeHeader .rowBinaryWithNamesAndTypes s1 ++ rest) = .error .schemaMismatch) ∧
    (s1.length = s2.length → s1.map Field.ty ≠ s2.map Field.ty →
      readHeader .rowBinaryWithNamesAndTypes s2
        (writeHeader .rowBinaryWithNamesAndTypes s1 ++ rest) = .error .schemaMismatch) ∧
    (s1.map Field.ty = s2.map Field.ty →
      readHeader .rowBinaryWithNames s2 (writeHeader .rowBinaryWithNames s1 ++ rest) =
        .ok rest ∧
      readHeader .rowBinaryWithNamesAndTypes s2
        (writeHeader .rowBinaryWithNamesAndTypes s1 ++ rest) = .ok rest) := by
  refine ⟨?_, ?_, ?_⟩
  · intro hne
    constructor
    · simp only [readHeader, writeHeader, List.append_assoc, uvarintEnc_roundtrip,
        if_neg hne]
    · simp only [readHeader, writeHeader, List.append_assoc, uvarintEnc_roundtrip,
        if_neg hne]
  · intro hlen hne
    simp only [readHeader, writeHeader, List.append_assoc, uvarintEnc_roundtrip,
      if_pos hlen, checkTypesHeader_write_mismatch hwf hlen hne rest]
  · intro heq
    have hlen : s1.length = s2.length := by
      have := congrArg List.length heq
      simpa using this
    constructor
    · simp only [readHeader, writeHeader, List.append_assoc, uvarintEnc_roundtrip,
        if_pos hlen, skipNames_write]
    · simp only [readHeader, writeHeader, List.append_assoc, uvarintEnc_roundtrip,
        if_pos hlen, checkTypesHeader_write_ok hwf heq]

/-- Closed witness for C4: a count mismatch, a type mismatch and a
tolerated name-only difference, each at a concrete schema pair. -/
theorem claim4_witness :
    readHeader .rowBinaryWithNames []
      (writeHeader .rowBinaryWithNames [⟨[], Ty.uint8⟩] ++ []) =
      .error .schemaMismatch ∧
    readHeader .rowBinaryWithNamesAndTypes [⟨[], Ty.uint16⟩]
      (writeHeader .rowBinaryWithNamesAndTypes [⟨[], Ty.uint8⟩] ++ []) =
      .error .schemaMismatch ∧
    readHeader .rowBinaryWithNamesAndTypes [⟨[7], Ty.uint8⟩]
      (writeHeader .rowBinaryWithNamesAndTypes [⟨[], Ty.uint8⟩] ++ []) = .ok [] := by
  have hwf : WfSchema [⟨[], Ty.uint8⟩] := by
    intro f hf
    rcases List.mem_singleton.mp hf with rfl
    exact WfTy.uint8
  refine ⟨?_, ?_, ?_⟩
  · exact ((claim4_header_schema_checks [⟨[], Ty.uint8⟩] [] hwf []).1 (by simp)).1
  · exact (claim4_header_schema_checks [⟨[], Ty.uint8⟩] [⟨[], Ty.uint16⟩] hwf []).2.1
      (by simp) (by simp)
  · exact ((claim4_header_schema_checks [⟨[], Ty.uint8⟩] [⟨[7], Ty.uint8⟩] hwf []).2.2
      (by simp)).2

/-- C5: decoding a `Nullable(T)` cell reads one discriminant byte — 0
means present and is followed by the encoding of `T`, 1 means null with
no further bytes for the cell, any other discriminant is
`malformedData`, and a missing discriminant is a truncation. -/
theorem claim5_nullable_discriminant (t : Ty) :
    (∀ v rest, ValidFor t v →
      decodeValue (.nullable t) (0 :: (encodeValue t v ++ rest)) =
        .ok (.nullable (some v), rest)) ∧
    (∀ rest, decodeValue (.nullable t) (1 :: rest) = .ok (.nullable none, rest)) ∧
    (∀ b rest, 2 ≤ b → decodeValue (.nullable t) (b :: rest) = .error .malformedData) ∧
    decodeValue (.nullable t) [] = .error .truncated := by
  refine ⟨?_, ?_, ?_, ?_⟩
  · intro v rest hv
    simp only [decodeValue, encDecValue hv rest]
  · intro rest
    simp [decodeValue]
  · intro b rest hb
    obtain ⟨k, rfl⟩ : ∃ k, b = k + 2 := ⟨b - 2, by omega⟩
    simp [decodeValue]
  · simp [decodeValue]

/-- Closed witness for C5 at `Nullable(UInt8)`. -/
theorem claim5_witness :
    ValidFor Ty.uint8 (Value.uint8 3) ∧
    decodeValue (.nullable .uint8) (0 :: (encodeValue .uint8 (.uint8 3) ++ [9])) =
      .ok (.nullable (some (.uint8 3)), [9]) ∧
    (2 ≤ 7) ∧
    decodeValue (.nullable .uint8) (7 :: [1, 2]) = .error .malformedData :=
  ⟨ValidFor.uint8 (by norm_num),
   (claim5_nullable_discriminant .uint8).1 (.uint8 3) [9] (ValidFor.uint8 (by norm_num)),
   by norm_num,
   (claim5_nullable_discriminant .uint8).2.2.1 7 [1, 2] (by norm_num)⟩

/-- C6: parsing fails with `invalidType` on an unbalanced parameter list,
an unknown leaf keyword, a non-numeric fixed-string length and an empty
parameter list where one is required; a comma nested inside an inner
parameter list does not split the outer list, and in general a balanced
comma-free-at-top-level prefix is split off exactly at its top-level
comma. -/
theorem claim6_parse_errors_and_top_level_split :
    parseTy sigUnbalanced = .error .invalidType ∧
    parseTy sigUnknownLeaf = .error .invalidType ∧
    parseTy sigBadFixed = .error .invalidType ∧
    parseTy sigTupleEmpty = .error .invalidType ∧
    parseTy sigNestedComma = .ok (.tuple [.tuple [.uint8, .int8], .string]) ∧
    (∀ p rest : List Char, netOk p 0 = some 0 → noTopComma p 0 = true →
      splitTopLevel (p ++ ',' :: rest) = p :: splitTopLevel rest) := by
  refine ⟨rfl, rfl, rfl, rfl, rfl, ?_⟩
  intro p rest hb hc
  exact splitTopLevel_cons hb hc

/-- Closed witness for C6's splitting property at a concrete part. -/
theorem claim6_witness :
    netOk ['A'] 0 = some 0 ∧ noTopComma ['A'] 0 = true ∧
    splitTopLevel (['A'] ++ ',' :: ['B']) = ['A'] :: splitTopLevel ['B'] :=
  ⟨rfl, rfl,
    claim6_parse_errors_and_top_level_split.2.2.2.2.2 ['A'] ['B'] rfl rfl⟩

/-- C7: every fixed-width integer and floating-point descriptor encodes
its payload little-endian in exactly its width's byte count — byte `i` is
`payload / 256^i % 256` — and decoding fails with `truncated` whenever
fewer bytes remain than the width requires. -/
theorem claim7_fixed_width_le (t : Ty) (w : Nat) (hw : numericWidth t = some w) :
    (∀ v, ValidFor t v →
      encodeValue t v = natToLE w (lePayload t v) ∧
      (encodeValue t v).length = w ∧
      ∀ i, i < w → (encodeValue t v)[i]? = some (lePayload t v / 256 ^ i % 256)) ∧
    (∀ bs : List Nat, bs.length < w → decodeValue t bs = .error .truncated) := by
  cases t with
  | uint8 =>
    obtain rfl : w = 1 := by simpa [numericWidth] using hw.symm
    refine ⟨?_, ?_⟩
    · intro v hv
      cases hv
      exact ⟨by simp [encodeValue, lePayload], by simp [encodeValue, natToLE_length],
        fun i hi => by simp only [encodeValue, lePayload]; exact natToLE_getElem? _ _ i hi⟩
    · intro bs hbs
      simp only [decodeValue]
      exact decodeUIntAs_truncated _ _ _ hbs
  | uint16 =>
    obtain rfl : w = 2 := by simpa [numericWidth] using hw.symm
    refine ⟨?_, ?_⟩
    · intro v hv
      cases hv
      exact ⟨by simp [encodeValue, lePayload], by simp [encodeValue, natToLE_length],
        fun i hi => by simp only [encodeValue, lePayload]; exact natToLE_getElem? _ _ i hi⟩
    · intro bs hbs
      simp only [decodeValue]
      exact decodeUIntAs_truncated _ _ _ hbs
  | uint32 =>
    obtain rfl : w = 4 := by simpa [numericWidth] using hw.symm
    refine ⟨?_, ?_⟩
    · intro v hv
      cases hv
      exact ⟨by simp [encodeValue, lePayload], by simp [encodeValue, natToLE_length],
        fun i hi => by simp only [encodeValue, lePayload]; exact natToLE_getElem? _ _ i hi⟩
    · intro bs hbs
      simp only [decodeValue]
      exact decodeUIntAs_truncated _ _ _ hbs
  | uint64 =>
    obtain rfl : w = 8 := by simpa [numericWidth] using hw.symm
    refine ⟨?_, ?_⟩
    · intro v hv
      cases hv
      exact ⟨by simp [encodeValue, lePayload], by simp [encodeValue, natToLE_length],
        fun i hi => by simp only [encodeValue, lePayload]; exact natToLE_getElem? _ _ i hi⟩
    · intro bs hbs
      simp only [decodeValue]
      exact decodeUIntAs_truncated _ _ _ hbs
  | uint128 =>
    obtain rfl : w = 16 := by simpa [numericWidth] using hw.symm
    refine ⟨?_, ?_⟩
    · intro v hv
      cases hv
      exact ⟨by simp [encodeValue, lePayload], by simp [encodeValue, natToLE_length],
        fun i hi => by simp only [encodeValue, lePayload]; exact natToLE_getElem? _ _ i hi⟩
    · intro bs hbs
      simp only [decodeValue]
      exact decodeUIntAs_truncated _ _ _ hbs
  | int8 =>
    obtain rfl : w = 1 := by simpa [numericWidth] using hw.symm
    refine ⟨?_, ?_⟩
    · intro v hv
      cases hv
      exact ⟨by simp [encodeValue, lePayload], by simp [encodeValue, natToLE_length],
        fun i hi => by simp only [encodeValue, lePayload]; exact natToLE_getElem? _ _ i hi⟩
    · intro bs hbs
      simp only [decodeValue]
      exact decodeIntAs_truncated _ _ _ hbs
  | int16 =>
    obtain rfl : w = 2 := by simpa [numericWidth] using hw.symm
    refine ⟨?_, ?_⟩
    · intro v hv
      cases hv
      exact ⟨by simp [encodeValue, lePayload], by simp [encodeValue, natToLE_length],
        fun i hi => by simp only [encodeValue, lePayload]; exact natToLE_getElem? _ _ i hi⟩
    · intro bs hbs
      simp only [decodeValue]
      exact decodeIntAs_truncated _ _ _ hbs
  | int32 =>
    obtain rfl : w = 4 := by simpa [numericWidth] using hw.symm
    refine ⟨?_, ?_⟩
    · intro v hv
      cases hv
      exact ⟨by simp [encodeValue, lePayload], by simp [encodeValue, natToLE_length],
        fun i hi => by simp only [encodeValue, lePayload]; exact natToLE_getElem? _ _ i hi⟩
    · intro bs hbs
      simp only [decodeValue]
      exact decodeIntAs_truncated _ _ _ hbs
  | int64 =>
    obtain rfl : w = 8 := by simpa [numericWidth] using hw.symm
    refine ⟨?_, ?_⟩
    · intro v hv
      cases hv
      exact ⟨by simp [encodeValue, lePayload], by simp [encodeValue, natToLE_length],
        fun i hi => by simp only [encodeValue, lePayload]; exact natToLE_getElem? _ _ i hi⟩
    · intro bs hbs
      simp only [decodeValue]
      exact decodeIntAs_truncated _ _ _ hbs
  | int128 =>
    obtain rfl : w = 16 := by simpa [numericWidth] using hw.symm
    refine ⟨?_, ?_⟩
    · intro v hv
      cases hv
      exact ⟨by simp [encodeValue, lePayload], by simp [encodeValue, natToLE_length],
        fun i hi => by simp only [encodeValue, lePayload]; exact natToLE_getElem? _ _ i hi⟩
    · intro bs hbs
      simp only [decodeValue]
      exact decodeIntAs_truncated _ _ _ hbs
  | float32 =>
    obtain rfl : w = 4 := by simpa [numericWidth] using hw.symm
    refine ⟨?_, ?_⟩
    · intro v hv
      cases hv
      exact ⟨by simp [encodeValue, lePayload], by simp [encodeValue, natToLE_length],
        fun i hi => by simp only [encodeValue, lePayload]; exact natToLE_getElem? _ _ i hi⟩
    · intro bs hbs
      simp only [decodeValue]
      exact decodeUIntAs_truncated _ _ _ hbs
  | float64 =>
    obtain rfl : w = 8 := by simpa [numericWidth] using hw.symm
    refine ⟨?_, ?_⟩
    · intro v hv
      cases hv
      exact ⟨by simp [encodeValue, lePayload], by simp [encodeValue, natToLE_length],
        fun i hi => by simp only [encodeValue, lePayload]; exact natToLE_getElem? _ _ i hi⟩
    · intro bs hbs
      simp only [decodeValue]
      exact decodeUIntAs_truncated _ _ _ hbs
  | string => simp [numericWidth] at hw
  | fixedString n => simp [numericWidth] at hw
  | decimal p s => simp [numericWidth] at hw
  | array t2 => simp [numericWidth] at hw
  | nullable t2 => simp [numericWidth] at hw
  | tuple ts => simp [numericWidth] at hw

/-- Closed witness for C7 at `UInt32`. -/
theorem claim7_witness :
    numericWidth Ty.uint32 = some 4 ∧ ValidFor Ty.uint32 (Value.uint32 5) ∧
    (encodeValue .uint32 (.uint32 5)).length = 4 ∧
    decodeValue .uint32 [1, 2] = .error .truncated :=
  ⟨rfl, ValidFor.uint32 (by norm_num),
   ((claim7_fixed_width_le .uint32 4 rfl).1 (.uint32 5)
     (ValidFor.uint32 (by norm_num))).2.1,
   (claim7_fixed_width_le .uint32 4 rfl).2 [1, 2] (by norm_num)⟩

/-- C8: an `Array(T)` encodes as a LEB128 element count followed by the
element encodings in order; the empty array encodes to the single
zero-count byte with nothing after it and decodes back to the empty
sequence for every element type, including nested arrays; and every
valid array round-trips. -/
theorem claim8_array_framing (t : Ty) :
    (∀ vs, encodeValue (.array t) (.array vs) =
      uvarintEnc vs.length ++ encodeList t vs) ∧
    encodeValue (.array t) (.array []) = [0] ∧
    (∀ rest : List Nat, decodeValue (.array t) (0 :: rest) = .ok (.array [], rest)) ∧
    (∀ vs rest, ValidFor (.array t) (.array vs) →
      decodeValue (.array t) (encodeValue (.array t) (.array vs) ++ rest) =
        .ok (.array vs, rest)) := by
  refine ⟨fun vs => by simp [encodeValue], ?_, ?_, ?_⟩
  · simp [encodeValue, encodeList, uvarintEnc_zero]
  · intro rest
    simp [decodeValue, uvarintDec, decodeList]
  · intro vs rest hv
    exact encDecValue hv rest

/-- Closed witness for C8: the empty nested array `Array(Array(UInt8))`
round-trips. -/
theorem claim8_witness :
    ValidFor (.array (.array .uint8)) (.array []) ∧
    decodeValue (.array (.array .uint8))
      (encodeValue (.array (.array .uint8)) (.array []) ++ [7]) =
      .ok (.array [], [7]) :=
  ⟨ValidFor.array (by intro v hv; simp at hv),
   (claim8_array_framing (.array .uint8)).2.2.2 [] [7]
     (ValidFor.array (by intro v hv; simp at hv))⟩

/-- C9: a variable-length byte string encodes as its LEB128 length
followed by its raw bytes, and decoding reads the length then exactly
that many bytes, so any byte sequence round-trips byte-identically with
no text-encoding validation. -/
theorem claim9_string_framing (bs rest : List Nat) :
    encodeValue .string (.string bs) = uvarintEnc bs.length ++ bs ∧
    decodeValue .string ((uvarintEnc bs.length ++ bs) ++ rest) = .ok (.string bs, rest) := by
  constructor
  · simp [encodeValue]
  · simp only [decodeValue, List.append_assoc, uvarintEnc_roundtrip, readBytes_roundtrip]

/-- C10: the textual rendering of each `RowBinaryFormat` variant is
exactly its wire-format name, and the rendering distinguishes the
variants. -/
theorem claim10_format_display :
    formatDisplay .rowBinary = "RowBinary" ∧
    formatDisplay .rowBinaryWithNames = "RowBinaryWithNames" ∧
    formatDisplay .rowBinaryWithNamesAndTypes = "RowBinaryWithNamesAndTypes" ∧
    ∀ a b : RowBinaryFormat, formatDisplay a = formatDisplay b → a = b := by
  refine ⟨rfl, rfl, rfl, ?_⟩
  intro a b h
  cases a <;> cases b <;> first | rfl | exact absurd h (by decide)

/-- Closed witness for C10's injectivity hypothesis at a concrete pair. -/
theorem claim10_witness :
    formatDisplay .rowBinary = formatDisplay .rowBinary ∧
    RowBinaryFormat.rowBinary = RowBinaryFormat.rowBinary :=
  ⟨rfl, claim10_format_display.2.2.2 .rowBinary .rowBinary rfl⟩

end ClickhouseBinary
